import Mathlib

/-!
# bianconiglio: contextualised errors

A shallow embedding of `errs.go` and `stack.go`.

* Go's dynamically typed values (`interface{}`) are the closed type `Value`; the
  constructors are the classes the type switches of the package tell apart: a
  composite node (`*marshalableError`, the only implementation of `Error`), a
  foreign `error` (with or without a `Cause()` method), and everything else.
* A Go map with string keys is a `Fields`: a list of entries with pairwise
  different keys, read by `Fields.get` and written by `Fields.set`.
* What the package takes from its environment (`fmt.Sprint`, the clock and the
  RFC3339 formatter and parser of package `time`, `runtime.Caller`, and the two
  package variables set by `init`) is the record `Env`.
* A tree of package `treeout` is a `Branches`: a text and the children in the order
  they were added.
* `json.Marshal` of package `encoding/json` is `Value.marshals`: whether the value is
  encoded without an error.
-/

namespace Bianconiglio

/-! ## Values and field sets -/

mutual
/-- A Go value held in an `interface{}` or `error` variable. -/
inductive Value where
  /-- the nil interface: an absent error, an absent value -/
  | nil : Value
  | str (s : String) : Value
  | int (n : Int) : Value
  | bool (b : Bool) : Value
  /-- a channel: a value that is no error and that `encoding/json` cannot encode -/
  | chan : Value
  /-- a `map[string]interface{}` or a `Fields` -/
  | doc (m : Fields) : Value
  /-- an error of another package with no `Cause()` method; `msg` is its `Error()` -/
  | ferr (msg : String) : Value
  /-- an error of another package whose `Cause()` returns `cause` -/
  | ferrC (msg : String) (cause : Value) : Value
  /-- a `*marshalableError` with its fields `Err`, `Context`, `Stack` -/
  | node (err : Value) (context : Fields) (stack : Fields) : Value
/-- The entries of a string-keyed Go map. -/
inductive Fields where
  | nil : Fields
  | cons (k : String) (v : Value) (rest : Fields) : Fields
end

deriving instance DecidableEq for Value, Fields

/-- The map read `v, ok := m[k]`: `none` is `ok == false`. -/
def Fields.get : Fields → String → Option Value
  | .nil, _ => none
  | .cons k v rest, key => if k = key then some v else rest.get key

/-- The map write `m[k] = v`: replaces the entry of `k`, or adds one. -/
def Fields.set : Fields → String → Value → Fields
  | .nil, key, val => .cons key val .nil
  | .cons k v rest, key, val =>
    if k = key then .cons k val rest else .cons k v (rest.set key val)

/-- The keys of a map, in entry order. -/
def Fields.keys : Fields → List String
  | .nil => []
  | .cons k _ rest => k :: rest.keys

/-- The entries of a map, in entry order. -/
def Fields.toList : Fields → List (String × Value)
  | .nil => []
  | .cons k v rest => (k, v) :: rest.toList

/-- Type switch `case Error`: the value is a composite node. -/
def Value.isNode : Value → Bool
  | .node _ _ _ => true
  | _ => false

/-- Type switch `case error` reached after `case Error`: a foreign error. -/
def Value.isForeignErr : Value → Bool
  | .ferr _ => true
  | .ferrC _ _ => true
  | _ => false

/-- The `Error()` string of a foreign error. -/
def Value.errorString : Value → String
  | .ferr msg => msg
  | .ferrC msg _ => msg
  | _ => ""

/-! ## Time -/

/-- An instant in UTC: seconds since the Unix epoch, nanoseconds within the second. -/
structure Time where
  sec : Int
  nsec : Nat
  nsec_lt : nsec < 1000000000
deriving DecidableEq

/-- The zero `time.Time{}`: January 1, year 1, 00:00:00 UTC. -/
def Time.zero : Time := ⟨-62135596800, 0, by decide⟩

/-- The instant with its sub-second part dropped: `t.Truncate(time.Second)`. -/
def Time.truncSec (t : Time) : Time := ⟨t.sec, 0, by decide⟩

/-- Nanoseconds since the Unix epoch. -/
def Time.unixNano (t : Time) : Int := t.sec * 1000000000 + t.nsec

/-! ## Environment -/

/-- What the package reads from outside itself. -/
structure Env where
  /-- `fmt.Sprint` of one value -/
  sprint : Value → String
  /-- `time.Now().UTC()` at the call -/
  now : Time
  /-- `t.Format(time.RFC3339)` -/
  format : Time → String
  /-- `time.Parse(time.RFC3339, s)`, `none` on a parse error -/
  parse : String → Option Time
  /-- `runtime.Caller(skip)` called inside `SetLocation`: file and line of the frame
  `skip` levels up (0 is `SetLocation`, 1 is `Contextualize`, 2 is its caller) -/
  caller : Nat → String × Int
  /-- package variable `goPath` -/
  goPath : String
  /-- package variable `prefixSize` -/
  prefixSize : Nat

/-! ## stack.go -/

/-- `trimGoPath`: `filename[prefixSize:]` when `filename` starts with `goPath`.
Positions count characters (bytes, on the ASCII paths the runtime reports). -/
def trimGoPath (goPath : String) (prefixSize : Nat) (filename : String) : String :=
  if goPath.data.isPrefixOf filename.data then ⟨filename.data.drop prefixSize⟩ else filename

/-- `SetLocation(callDepth)`: writes `file` and `line` of the frame `callDepth` levels
above its caller into the stack. -/
def SetLocation (env : Env) (callDepth : Nat) (stack : Fields) : Fields :=
  let frame := env.caller (callDepth + 1)
  (stack.set "file" (.str (trimGoPath env.goPath env.prefixSize frame.1))).set
    "line" (.int frame.2)

/-- The characters that lie wholly within the first `n` bytes of a UTF-8 text: the
slice `s[:n]` when `n` falls between two characters. -/
def takeBytes : Nat → List Char → List Char
  | _, [] => []
  | n, c :: cs => if c.utf8Size ≤ n then c :: takeBytes (n - c.utf8Size) cs else []

/-- The package variables `goPath` and `prefixSize` after `init`, given the file and
the flag `ok` that `runtime.Caller(0)` reports; before `init` they hold `""` and `0`.
`len` counts bytes. `none` is the run-time fault of the slice expression
`file[:size-suffix]` with a bound out of range. -/
def init (file : String) (ok : Bool) : Option (String × Nat) :=
  if file = "?" then some ("", 0)
  else if ok then
    let size : Int := file.utf8ByteSize
    let suffix : Int := "github.com/gagliardetto/bianconiglio/stack.go".utf8ByteSize
    if 0 ≤ size - suffix ∧ size - suffix ≤ size then
      let goPath : String := ⟨takeBytes (size - suffix).toNat file.data⟩
      some (goPath, goPath.utf8ByteSize)
    else none
  else some ("", 0)

/-! ## errs.go -/

/-- The loop of `parseKeyVals`, two elements a step, writing into `meta`. -/
def parseLoop (sprint : Value → String) : List Value → Fields → Fields
  | [], m => m
  | [k], m => m.set (sprint k) (.str "MISSING")
  | k :: v :: rest, m => parseLoop sprint rest (m.set (sprint k) v)

/-- `parseKeyVals`: the nil map for no arguments, else the map filled by the loop. -/
def parseKeyVals (sprint : Value → String) (keyvals : List Value) : Fields :=
  if keyvals.length = 0 then .nil else parseLoop sprint keyvals .nil

/-- `for k, v := range src { dst[k] = v }`. -/
def Fields.copyInto : Fields → Fields → Fields
  | .nil, dst => dst
  | .cons k v rest, dst => rest.copyInto (dst.set k v)

/-- `Contextualize(err, keyVals...)`. -/
def Contextualize (env : Env) (err : Value) (keyVals : List Value) : Value :=
  let context := Fields.nil.set "timestamp" (.str (env.format env.now))
  let context := (parseKeyVals env.sprint keyVals).copyInto context
  .node err context (SetLocation env 1 .nil)

/-- The type assertion `_, ok := v.(CauseInterface)`: nodes have `Cause()`, and so
do the foreign errors that define it. -/
def Value.hasCause : Value → Bool
  | .node _ _ _ => true
  | .ferrC _ _ => true
  | _ => false

/-- The method call `v.Cause()` on a value that has the method. On a node it is
`marshalableError.Cause`: the wrapped value's `Cause()` when it has one, else the
wrapped value. On a foreign error it is that error's own method. Values without the
method give nil. -/
def Value.Cause : Value → Value
  | .node err _ _ => if err.hasCause then err.Cause else err
  | .ferrC _ cause => cause
  | _ => .nil

mutual
/-- `toMap()` of a node. Only nodes have the method; on other values the result is
the empty map. -/
def Value.toMap : Value → Fields
  | .node err context stack =>
    let result := Fields.nil
    let result :=
      if err.isNode then result.set "err" (.doc err.toMap)
      else if err.isForeignErr then result.set "err" (.str err.errorString)
      else result
    let result := result.set "context" (.doc (context.toMapCtx .nil))
    result.set "stack" (.doc stack)
  | _ => .nil
/-- The loop of `toMap()` over the context entries, writing into `ctx`. -/
def Fields.toMapCtx : Fields → Fields → Fields
  | .nil, ctx => ctx
  | .cons k i rest, ctx =>
    if i.isNode then rest.toMapCtx (ctx.set k (.doc i.toMap))
    else if i.isForeignErr then rest.toMapCtx (ctx.set k (.str i.errorString))
    else rest.toMapCtx (ctx.set k i)
end

/-- `Timestamp()` of a node. Only nodes have the method; on other values the result
is the zero time. -/
def Value.Timestamp (parse : String → Option Time) : Value → Time
  | .node _ context _ =>
    match context.get "timestamp" with
    | some (.str ts) =>
      match parse ts with
      | some t => t
      | none => Time.zero
    | _ => Time.zero
  | _ => Time.zero

/-! ## MarshalJSON -/

mutual
/-- Whether `json.Marshal(v)` of package `encoding/json`, which is not part of the
repository, returns no error. Nil, strings, integers and booleans are encoded; a map
is encoded when each of its values is; a channel is of an unsupported type; an error of
another package is encoded as the object of its exported fields; a node is encoded by
its own `MarshalJSON`, that is, as its document: its wrapped node, its context values
and its stack values have to be encoded. -/
def Value.marshals : Value → Bool
  | .nil => true
  | .str _ => true
  | .int _ => true
  | .bool _ => true
  | .chan => false
  | .doc m => m.allMarshal
  | .ferr _ => true
  | .ferrC _ _ => true
  | .node err context stack =>
    (if err.isNode then err.marshals else true) && context.allMarshal && stack.allMarshal
/-- Whether `json.Marshal` encodes every value of the map. -/
def Fields.allMarshal : Fields → Bool
  | .nil => true
  | .cons _ v rest => v.marshals && rest.allMarshal
end

/-- `MarshalJSON()` of a node: `json.Marshal(e.toMap())`. `some ()` stands for the bytes
returned with a nil error, `none` for the error of `json.Marshal`. -/
def Value.MarshalJSON (v : Value) : Option Unit :=
  if (Value.doc v.toMap).marshals then some () else none

/-! ## The tree -/

/-- Modelled from the spec: a tree of package `treeout`, which is not among the sources.
A branch has a text and its children in the order they were added. -/
inductive Branches where
  | mk (text : String) (children : List Branches) : Branches

/-- The text of a branch. -/
def Branches.text : Branches → String
  | .mk t _ => t

/-- The children of a branch. -/
def Branches.children : Branches → List Branches
  | .mk _ c => c

/-- A branch with no children. -/
def leaf (text : String) : Branches := .mk text []

/-- The receiver after `b.Child(text)` when the new child is given no children: `b`
with one more leaf. -/
def Branches.Child (b : Branches) (text : String) : Branches :=
  .mk b.text (b.children ++ [leaf text])

/-- `fmt.Sprintf("%v: %v", k, v)`: each argument as `fmt.Sprint` prints it. -/
def sprintfKV (sprint : Value → String) (k v : Value) : String :=
  sprint k ++ ": " ++ sprint v

mutual
/-- `tree(parent)` of a node: `parent` after the branches `ERR`, `CTX` and `STACK` were
added and filled. Only nodes have the method; other values leave `parent` as it is. -/
def Value.tree (sprint : Value → String) : Value → Branches → Branches
  | .node err context stack, parent =>
    let errt := Branches.mk "ERR" []
    let errt :=
      if err.isNode then err.tree sprint errt
      else if err.isForeignErr then errt.Child (sprint (.str err.errorString))
      else errt.Child (sprint err)
    let ctxT := context.treeLoop sprint (Branches.mk "CTX" [])
    let stack := stack.treeLoop sprint (Branches.mk "STACK" [])
    .mk parent.text (parent.children ++ [errt, ctxT, stack])
  | _, parent => parent
/-- The loop of `tree` over the entries of a field set, adding to the branch `t`. The
entries are visited in entry order; Go visits them in an unspecified order. -/
def Fields.treeLoop (sprint : Value → String) : Fields → Branches → Branches
  | .nil, t => t
  | .cons k i rest, t =>
    if i.isNode then rest.treeLoop sprint (i.tree sprint t)
    else if i.isForeignErr then
      rest.treeLoop sprint (t.Child (sprintfKV sprint (.str k) (.str i.errorString)))
    else rest.treeLoop sprint (t.Child (sprintfKV sprint (.str k) (.str (sprint i))))
end

/-- The branches that `tree` of a value adds to its parent. -/
def Value.branches (sprint : Value → String) (v : Value) : List Branches :=
  (v.tree sprint (.mk "" [])).children

/-- What one entry of a field set adds to the branch of the set: the branches of a
node, or one leaf `key: text`. -/
def entryBranches (sprint : Value → String) (k : String) (v : Value) : List Branches :=
  if v.isNode then v.branches sprint
  else if v.isForeignErr then [leaf (sprintfKV sprint (.str k) (.str v.errorString))]
  else [leaf (sprintfKV sprint (.str k) (.str (sprint v)))]

/-- What the entries of a field set add to its branch, entry after entry. -/
def Fields.entriesBranches (sprint : Value → String) : Fields → List Branches
  | .nil => []
  | .cons k v rest => entryBranches sprint k v ++ rest.entriesBranches sprint

/-- The field set with the key of each entry of key `k` replaced by `k1`. -/
def Fields.rekey (k k1 : String) : Fields → Fields
  | .nil => .nil
  | .cons k0 v rest => .cons (if k0 = k then k1 else k0) v (rest.rekey k k1)

/-! ## Reading the results -/

/-- The field `Context` of a node. -/
def Value.context : Value → Fields
  | .node _ c _ => c
  | _ => .nil

/-- The field `Stack` of a node. -/
def Value.stack : Value → Fields
  | .node _ _ s => s
  | _ => .nil

/-- The value that the pairs of `keyvals` give to the key `k`: that of the last pair
whose key prints as `k`, with `"MISSING"` for a key that ends the list. -/
def lastVal (sprint : Value → String) : List Value → String → Option Value
  | [], _ => none
  | [x], k => if sprint x = k then some (.str "MISSING") else none
  | x :: v :: rest, k =>
    (lastVal sprint rest k).orElse (fun _ => if sprint x = k then some v else none)

/-- What the spec says a context entry becomes in the document: a nested node becomes
its own document, any other error its string form, everything else stays as it is. -/
def Value.converted (v : Value) : Value :=
  if v.isNode then .doc v.toMap
  else if v.isForeignErr then .str v.errorString
  else v

/-- The chain `n1 = Contextualize(e, ...)`, `n2 = Contextualize(n1, ...)`, ...: one
step for each call, with the environment and the `keyVals` of that call. -/
def nest (e : Value) : List (Env × List Value) → Value
  | [] => e
  | (env, keyVals) :: steps => nest (Contextualize env e keyVals) steps

mutual
/-- A value with no error and no node in it, at any depth. -/
def Value.plain : Value → Bool
  | .nil => true
  | .str _ => true
  | .int _ => true
  | .bool _ => true
  | .chan => true
  | .doc m => m.allPlain
  | .ferr _ => false
  | .ferrC _ _ => false
  | .node _ _ _ => false
/-- A map whose values are all plain. -/
def Fields.allPlain : Fields → Bool
  | .nil => true
  | .cons _ v rest => v.plain && rest.allPlain
end

mutual
/-- A node in which nodes are nested only as the wrapped error or as context values:
the wrapped value, when it is a node, is such a node; every context value is such a
node, a foreign error, or plain; the stack values are plain. -/
def Value.nested : Value → Bool
  | .node err context stack =>
    (if err.isNode then err.nested else true) && context.entriesNested && stack.allPlain
  | _ => false
/-- The condition of `Value.nested` on the context entries. -/
def Fields.entriesNested : Fields → Bool
  | .nil => true
  | .cons _ v rest =>
    (if v.isNode then v.nested else v.isForeignErr || v.plain) && rest.entriesNested
end

/-- A value that `toMap()` turns into plain data when it is a context value. -/
def Value.convertible (v : Value) : Bool :=
  if v.isNode then v.nested else v.isForeignErr || v.plain

/-! ## RFC3339 in UTC

Package `time` is not part of the repository. The layout `time.RFC3339` for an
instant in UTC is `YYYY-MM-DDTHH:MM:SSZ`; the date is computed the way package `time`
does, by cycles of 400, 100, 4 and 1 years counted from year 1. The parser below reads
that form, which is the one the formatter writes. -/

/-- The last decimal digit of `d` as a character. -/
def digitChar (d : Nat) : Char := Char.ofNat (48 + d % 10)

/-- The value of a decimal digit character. -/
def digitVal (c : Char) : Option Nat :=
  if 48 ≤ c.toNat ∧ c.toNat ≤ 57 then some (c.toNat - 48) else none

/-- Two digits, zero padded. -/
def pad2 (n : Nat) : List Char := [digitChar (n / 10), digitChar n]

/-- Four digits, zero padded. -/
def pad4 (n : Nat) : List Char :=
  [digitChar (n / 1000), digitChar (n / 100), digitChar (n / 10), digitChar n]

/-- The number written by two digit characters. -/
def num2 (a b : Char) : Option Nat :=
  match digitVal a, digitVal b with
  | some x, some y => some (10 * x + y)
  | _, _ => none

/-- The number written by four digit characters. -/
def num4 (a b c d : Char) : Option Nat :=
  match num2 a b, num2 c d with
  | some x, some y => some (100 * x + y)
  | _, _ => none

/-- Days of a common year before the end of month `m`: `daysBefore` of package time. -/
def daysBefore : Nat → Nat
  | 0 => 0
  | 1 => 31
  | 2 => 59
  | 3 => 90
  | 4 => 120
  | 5 => 151
  | 6 => 181
  | 7 => 212
  | 8 => 243
  | 9 => 273
  | 10 => 304
  | 11 => 334
  | _ => 365

/-- Leap years of the Gregorian calendar. -/
def isLeap (y : Int) : Bool := y % 4 = 0 ∧ (y % 100 ≠ 0 ∨ y % 400 = 0)

/-- Days in month `m` of a leap or common year. -/
def daysIn (leap : Bool) (m : Nat) : Nat :=
  if m = 2 ∧ leap then 29 else daysBefore m - daysBefore (m - 1)

/-- Month and day of month of the day `yday` (from 0) of a leap or common year. -/
def monthDay (leap : Bool) (yday : Nat) : Nat × Nat :=
  if leap ∧ yday = 59 then (2, 29)
  else
    let day := if leap ∧ yday > 59 then yday - 1 else yday
    let month := day / 31
    let e := daysBefore (month + 1)
    if day ≥ e then (month + 2, day - e + 1) else (month + 1, day - daysBefore month + 1)

/-- Days from 0001-01-01 to the first day of year `y`. -/
def daysBeforeYear (y : Int) : Int :=
  365 * (y - 1) + (y - 1) / 4 - (y - 1) / 100 + (y - 1) / 400

/-- Days from 0001-01-01 to the given date. -/
def daysFromCivil (y : Int) (m d : Nat) : Int :=
  daysBeforeYear y +
    ((daysBefore (m - 1) + (if isLeap y = true ∧ m ≥ 3 then 1 else 0) + d - 1 : Nat) : Int)

/-- Years since year 1 and day of the year of the day `n` days after 0001-01-01. -/
def yearDay (n : Int) : Int × Nat :=
  let n400 := n / 146097
  let r := (n % 146097).toNat
  let n100 := min (r / 36524) 3
  let r1 := r - 36524 * n100
  let n4 := r1 / 1461
  let r2 := r1 % 1461
  let n1 := min (r2 / 365) 3
  (400 * n400 + (100 * n100 + 4 * n4 + n1 : Nat) + 1, r2 - 365 * n1)

/-- Year, month and day of the day `n` days after 0001-01-01. -/
def civilFromDays (n : Int) : Int × Nat × Nat :=
  let (year, yday) := yearDay n
  (year, monthDay (isLeap year) yday)

/-- The year field: at least four digits, with a sign for a negative year. -/
def yearChars (y : Int) : List Char :=
  if y < 0 then
    '-' :: (if (-y).toNat < 10000 then pad4 (-y).toNat else (Nat.repr (-y).toNat).data)
  else if y.toNat < 10000 then pad4 y.toNat else (Nat.repr y.toNat).data

/-- The text of `t.Format(time.RFC3339)` for `t` in UTC. -/
def rfc3339Format (t : Time) : String :=
  let rem := (t.sec % 86400).toNat
  let (y, m, d) := civilFromDays (t.sec / 86400 + 719162)
  ⟨yearChars y ++ ['-'] ++ pad2 m ++ ['-'] ++ pad2 d ++ ['T'] ++ pad2 (rem / 3600) ++ [':']
    ++ pad2 (rem % 3600 / 60) ++ [':'] ++ pad2 (rem % 60) ++ ['Z']⟩

/-- The instant of the date and clock fields read by the parser, when they are in range. -/
def timeOfFields (y m d h mi sc : Nat) : Option Time :=
  if 1 ≤ m ∧ m ≤ 12 ∧ 1 ≤ d ∧ d ≤ daysIn (isLeap y) m ∧ h < 24 ∧ mi < 60 ∧ sc < 60 then
    some ⟨(daysFromCivil y m d - 719162) * 86400 + (h * 3600 + mi * 60 + sc : Nat), 0, by decide⟩
  else none

/-- The result of `time.Parse(time.RFC3339, s)` on a text of the form
`YYYY-MM-DDTHH:MM:SSZ`; `none` is a parse error. -/
def rfc3339Parse (s : String) : Option Time :=
  match s.data with
  | [y1, y2, y3, y4, '-', m1, m2, '-', d1, d2, 'T', h1, h2, ':', i1, i2, ':', s1, s2, 'Z'] =>
    match num4 y1 y2 y3 y4, num2 m1 m2, num2 d1 d2, num2 h1 h2, num2 i1 i2, num2 s1 s2 with
    | some y, some m, some d, some h, some mi, some sc => timeOfFields y m d h mi sc
    | _, _, _, _, _, _ => none
  | _ => none


/-! ## A worked environment -/

/-- The text of `fmt.Sprint` for nil, strings, integers, booleans and foreign errors;
channels, maps and nodes are written as a fixed word each. -/
def sprintPlain : Value → String
  | .nil => "<nil>"
  | .str s => s
  | .int n => toString n
  | .bool b => toString b
  | .chan => "chan"
  | .ferr msg => msg
  | .ferrC msg _ => msg
  | .doc _ => "map"
  | .node _ _ _ => "node"

/-- Seven arguments: the key `user` twice, and a last key without a value. -/
def sampleKeyVals : List Value :=
  [.str "user", .str "alice", .int 7, .bool true, .str "user", .str "bob", .str "tail"]

/-- A node built around a foreign error. -/
def sampleInner (env : Env) : Value :=
  Contextualize env (.ferr "EOF") [.str "op", .str "read"]

/-- A context with a node, a foreign error and two other values. -/
def sampleContext : Fields :=
  .cons "inner" (.node (.ferr "EOF") (.cons "op" (.str "read") .nil) .nil)
    (.cons "cause" (.ferrC "timeout" .nil)
      (.cons "attempt" (.int 3) (.cons "user" (.str "alice") .nil)))

/-- A call from `/home/u/go/src/app/main.go:42` at 2024-02-29T12:34:56.000000005Z. -/
def sampleEnv : Env where
  sprint := sprintPlain
  now := ⟨1709210096, 5, by decide⟩
  format := rfc3339Format
  parse := rfc3339Parse
  caller := fun skip =>
    match skip with
    | 0 => ("/home/u/go/src/github.com/gagliardetto/bianconiglio/stack.go", 12)
    | 1 => ("/home/u/go/src/github.com/gagliardetto/bianconiglio/errs.go", 170)
    | 2 => ("/home/u/go/src/app/main.go", 42)
    | _ => ("/usr/local/go/src/runtime/proc.go", 250)
  goPath := "/home/u/go/src/"
  prefixSize := 15

/-! ## Field sets: reads after writes -/

/-- Induction over the entries of a field set. -/
theorem Fields.induct {P : Fields → Prop} (hnil : P .nil)
    (hcons : ∀ k v rest, P rest → P (.cons k v rest)) : ∀ m, P m
  | .nil => hnil
  | .cons k v rest => hcons k v rest (Fields.induct hnil hcons rest)

theorem Fields.get_set_self (m : Fields) (k : String) (v : Value) :
    (m.set k v).get k = some v := by
  induction m using Fields.induct with
  | hnil => simp [Fields.set, Fields.get]
  | hcons k0 v0 rest ih =>
    by_cases h : k0 = k
    · simp [Fields.set, Fields.get, h]
    · simp [Fields.set, Fields.get, h, ih]

theorem Fields.get_set_ne (m : Fields) (k k1 : String) (v : Value) (h : k ≠ k1) :
    (m.set k v).get k1 = m.get k1 := by
  induction m using Fields.induct with
  | hnil => simp [Fields.set, Fields.get, h]
  | hcons k0 v0 rest ih =>
    by_cases h0 : k0 = k
    · subst h0
      simp [Fields.set, Fields.get, h]
    · by_cases h1 : k0 = k1
      · subst h1
        simp [Fields.set, Fields.get, h0]
      · simp [Fields.set, Fields.get, h0, h1, ih]

theorem Fields.get_set (m : Fields) (k k1 : String) (v : Value) :
    (m.set k v).get k1 = if k = k1 then some v else m.get k1 := by
  by_cases h : k = k1
  · subst h
    simp [Fields.get_set_self]
  · simp [h, Fields.get_set_ne m k k1 v h]

theorem Fields.get_eq_none_iff (m : Fields) (k : String) :
    m.get k = none ↔ k ∉ m.keys := by
  induction m using Fields.induct with
  | hnil => simp [Fields.get, Fields.keys]
  | hcons k0 v0 rest ih =>
    by_cases h : k0 = k
    · simp [Fields.get, Fields.keys, h]
    · have h1 : ¬ k = k0 := fun e => h e.symm
      simp [Fields.get, Fields.keys, h, h1, ih]

theorem Fields.keys_set (m : Fields) (k : String) (v : Value) :
    (m.set k v).keys = if k ∈ m.keys then m.keys else m.keys ++ [k] := by
  induction m using Fields.induct with
  | hnil => simp [Fields.set, Fields.keys]
  | hcons k0 v0 rest ih =>
    by_cases h : k0 = k
    · simp [Fields.set, Fields.keys, h]
    · have h1 : ¬ k = k0 := fun e => h e.symm
      by_cases hm : k ∈ rest.keys
      · simp [Fields.set, Fields.keys, h, h1, ih, hm]
      · simp [Fields.set, Fields.keys, h, h1, ih, hm]

theorem Fields.nodup_set (m : Fields) (k : String) (v : Value) (h : m.keys.Nodup) :
    (m.set k v).keys.Nodup := by
  rw [Fields.keys_set]
  by_cases hm : k ∈ m.keys
  · simpa [hm] using h
  · simp only [hm, if_false]
    exact List.Nodup.append h (List.nodup_singleton k) (by simpa using hm)

theorem Fields.mem_keys_set (m : Fields) (k k1 : String) (v : Value) :
    k1 ∈ (m.set k v).keys ↔ k1 = k ∨ k1 ∈ m.keys := by
  rw [Fields.keys_set]
  by_cases hm : k ∈ m.keys
  · simp only [hm, if_true]
    constructor
    · exact fun h => Or.inr h
    · rintro (h | h)
      · exact h ▸ hm
      · exact h
  · simp only [hm, if_false, List.mem_append, List.mem_singleton]
    tauto

/-! ## Copying one map into another -/

theorem Fields.copyInto_get (src : Fields) (h : src.keys.Nodup) (dst : Fields) (k : String) :
    (src.copyInto dst).get k = (src.get k).orElse (fun _ => dst.get k) := by
  induction src using Fields.induct generalizing dst with
  | hnil => simp [Fields.copyInto, Fields.get]
  | hcons k0 v0 rest ih =>
    have hn : k0 ∉ rest.keys ∧ rest.keys.Nodup := by
      simpa [Fields.keys] using h
    rw [Fields.copyInto, ih hn.2]
    by_cases h0 : k0 = k
    · subst h0
      have : rest.get k0 = none := (Fields.get_eq_none_iff rest k0).2 hn.1
      simp [Fields.get, this, Fields.get_set_self]
    · simp [Fields.get, h0, Fields.get_set_ne _ _ _ _ h0]

theorem Fields.copyInto_keys_nodup (src dst : Fields) (h : dst.keys.Nodup) :
    (src.copyInto dst).keys.Nodup := by
  induction src using Fields.induct generalizing dst with
  | hnil => simpa [Fields.copyInto] using h
  | hcons k0 v0 rest ih =>
    rw [Fields.copyInto]
    exact ih _ (Fields.nodup_set dst k0 v0 h)

/-! ## parseKeyVals -/

/-- Induction over a list two elements at a time, as the loop of `parseKeyVals` walks it. -/
theorem pairs_induct {α : Type} {P : List α → Prop} (hnil : P [])
    (hone : ∀ x, P [x]) (hpair : ∀ x v rest, P rest → P (x :: v :: rest)) : ∀ l, P l
  | [] => hnil
  | [x] => hone x
  | x :: v :: rest => hpair x v rest (pairs_induct hnil hone hpair rest)

theorem parseLoop_get (sprint : Value → String) (kvs : List Value) (m : Fields) (k : String) :
    (parseLoop sprint kvs m).get k = (lastVal sprint kvs k).orElse (fun _ => m.get k) := by
  induction kvs using pairs_induct generalizing m with
  | hnil => simp [parseLoop, lastVal]
  | hone x =>
    by_cases h : sprint x = k
    · simp [parseLoop, lastVal, h, Fields.get_set]
    · simp [parseLoop, lastVal, h, Fields.get_set]
  | hpair x v rest ih =>
    rw [parseLoop, ih, lastVal]
    cases hl : lastVal sprint rest k with
    | some w => simp
    | none =>
      by_cases h : sprint x = k
      · simp [h, Fields.get_set]
      · simp [h, Fields.get_set]

theorem parseLoop_keys_nodup (sprint : Value → String) (kvs : List Value) (m : Fields)
    (h : m.keys.Nodup) : (parseLoop sprint kvs m).keys.Nodup := by
  induction kvs using pairs_induct generalizing m with
  | hnil => simpa [parseLoop] using h
  | hone x => exact Fields.nodup_set _ _ _ h
  | hpair x v rest ih =>
    rw [parseLoop]
    exact ih _ (Fields.nodup_set _ _ _ h)

theorem getElem?_pair_succ {α : Type} (x v : α) (rest : List α) (j : Nat) :
    (x :: v :: rest)[2 * (j + 1)]? = rest[2 * j]? ∧
      (x :: v :: rest)[2 * (j + 1) + 1]? = rest[2 * j + 1]? := by
  have e1 : 2 * (j + 1) = 2 * j + 1 + 1 := by ring
  rw [e1]
  simp

theorem lastVal_eq_none (sprint : Value → String) (kvs : List Value) (k : String)
    (h : ∀ j y, kvs[2 * j]? = some y → sprint y ≠ k) : lastVal sprint kvs k = none := by
  induction kvs using pairs_induct with
  | hnil => simp [lastVal]
  | hone x =>
    have := h 0 x (by simp)
    simp [lastVal, this]
  | hpair x v rest ih =>
    have h0 := h 0 x (by simp)
    have hr : ∀ j y, rest[2 * j]? = some y → sprint y ≠ k := fun j y hy =>
      h (j + 1) y (by rw [(getElem?_pair_succ x v rest j).1]; exact hy)
    simp [lastVal, ih hr, h0]

theorem lastVal_last (sprint : Value → String) (kvs : List Value) (k : String)
    (h : ∃ i x, kvs[2 * i]? = some x ∧ sprint x = k) :
    ∃ j y, kvs[2 * j]? = some y ∧ sprint y = k ∧
      (∀ j1 y1, j < j1 → kvs[2 * j1]? = some y1 → sprint y1 ≠ k) ∧
      lastVal sprint kvs k = some ((kvs[2 * j + 1]?).getD (.str "MISSING")) := by
  induction kvs using pairs_induct with
  | hnil =>
    obtain ⟨i, x, hx, _⟩ := h
    simp at hx
  | hone x =>
    obtain ⟨i, x1, hx, hk⟩ := h
    have hi : i = 0 := by
      rcases i with _ | i
      · rfl
      · have e1 : 2 * (i + 1) = 2 * i + 1 + 1 := by ring
        rw [e1] at hx
        simp at hx
    subst hi
    have hx1 : x = x1 := by simpa using hx
    subst hx1
    refine ⟨0, x, by simp, hk, ?_, by simp [lastVal, hk]⟩
    intro j1 y1 hj hy
    obtain ⟨j2, rfl⟩ : ∃ j2, j1 = j2 + 1 := ⟨j1 - 1, by omega⟩
    have e1 : 2 * (j2 + 1) = 2 * j2 + 1 + 1 := by ring
    rw [e1] at hy
    simp at hy
  | hpair x v rest ih =>
    by_cases hr : ∃ i x, rest[2 * i]? = some x ∧ sprint x = k
    · obtain ⟨j, y, hy, hk, hlast, hval⟩ := ih hr
      refine ⟨j + 1, y, ?_, hk, ?_, ?_⟩
      · rw [(getElem?_pair_succ x v rest j).1]; exact hy
      · intro j1 y1 hj hy1
        obtain ⟨j2, rfl⟩ : ∃ j2, j1 = j2 + 1 := ⟨j1 - 1, by omega⟩
        rw [(getElem?_pair_succ x v rest j2).1] at hy1
        exact hlast j2 y1 (by omega) hy1
      · rw [(getElem?_pair_succ x v rest j).2, lastVal, hval]
        simp
    · have hnone : lastVal sprint rest k = none :=
        lastVal_eq_none sprint rest k (fun j y hy hk => hr ⟨j, y, hy, hk⟩)
      obtain ⟨i, x1, hx, hk⟩ := h
      have hi : i = 0 := by
        rcases i with _ | i
        · rfl
        · rw [(getElem?_pair_succ x v rest i).1] at hx
          exact absurd ⟨i, x1, hx, hk⟩ hr
      subst hi
      have hx1 : x = x1 := by simpa using hx
      subst hx1
      refine ⟨0, x, by simp, hk, ?_, by simp [lastVal, hnone, hk]⟩
      intro j1 y1 hj hy1 hk1
      obtain ⟨j2, rfl⟩ : ∃ j2, j1 = j2 + 1 := ⟨j1 - 1, by omega⟩
      rw [(getElem?_pair_succ x v rest j2).1] at hy1
      exact hr ⟨j2, y1, hy1, hk1⟩

theorem parseKeyVals_get (sprint : Value → String) (kvs : List Value) (k : String) :
    (parseKeyVals sprint kvs).get k = lastVal sprint kvs k := by
  unfold parseKeyVals
  by_cases h : kvs.length = 0
  · have : kvs = [] := List.length_eq_zero.mp h
    subst this
    simp [Fields.get, lastVal]
  · rw [if_neg h, parseLoop_get]
    cases lastVal sprint kvs k <;> simp [Fields.get]

theorem parseKeyVals_keys_nodup (sprint : Value → String) (kvs : List Value) :
    (parseKeyVals sprint kvs).keys.Nodup := by
  unfold parseKeyVals
  by_cases h : kvs.length = 0
  · simp [h, Fields.keys]
  · rw [if_neg h]
    exact parseLoop_keys_nodup sprint kvs .nil (by simp [Fields.keys])

theorem Contextualize_context_get (env : Env) (err : Value) (kvs : List Value) (k : String) :
    (Contextualize env err kvs).context.get k =
      (lastVal env.sprint kvs k).orElse
        (fun _ => if "timestamp" = k then some (.str (env.format env.now)) else none) := by
  simp only [Contextualize, Value.context]
  rw [Fields.copyInto_get _ (parseKeyVals_keys_nodup _ _), parseKeyVals_get]
  simp [Fields.set, Fields.get]

/-! ## RFC3339: parsing what was formatted -/

set_option maxRecDepth 100000 in
theorem monthDay_spec : ∀ leap : Bool, ∀ yday < 366, (leap = true ∨ yday < 365) →
    1 ≤ (monthDay leap yday).1 ∧ (monthDay leap yday).1 ≤ 12 ∧
    1 ≤ (monthDay leap yday).2 ∧ (monthDay leap yday).2 ≤ daysIn leap (monthDay leap yday).1 ∧
    daysBefore ((monthDay leap yday).1 - 1) +
      (if leap = true ∧ (monthDay leap yday).1 ≥ 3 then 1 else 0) + (monthDay leap yday).2 - 1 = yday := by
  decide

theorem year_arith (a : Int) (f b i : Nat) (hf : f ≤ 3) (hb : b ≤ 24) (hi : i ≤ 3) :
    daysBeforeYear (400 * a + (100 * f + 4 * b + i : Nat) + 1) =
        146097 * a + 36524 * f + 1461 * b + 365 * i ∧
      (isLeap (400 * a + (100 * f + 4 * b + i : Nat) + 1) = true ↔ i = 3 ∧ (b < 24 ∨ f = 3)) := by
  simp only [daysBeforeYear, isLeap, decide_eq_true_eq]
  constructor
  · omega
  · omega

theorem yearDay_decomp (n : Int) :
    ∃ (a : Int) (f b i : Nat),
      yearDay n = (400 * a + (100 * f + 4 * b + i : Nat) + 1,
        (n - (146097 * a + 36524 * f + 1461 * b + 365 * i)).toNat) ∧
      f ≤ 3 ∧ b ≤ 24 ∧ i ≤ 3 ∧
      0 ≤ n - (146097 * a + 36524 * f + 1461 * b + 365 * i) ∧
      n - (146097 * a + 36524 * f + 1461 * b + 365 * i) ≤ 365 ∧
      (n - (146097 * a + 36524 * f + 1461 * b + 365 * i) = 365 → i = 3 ∧ (b < 24 ∨ f = 3)) := by
  refine ⟨n / 146097, min ((n % 146097).toNat / 36524) 3,
    ((n % 146097).toNat - 36524 * min ((n % 146097).toNat / 36524) 3) / 1461,
    min (((n % 146097).toNat - 36524 * min ((n % 146097).toNat / 36524) 3) % 1461 / 365) 3,
    ?_, ?_, ?_, ?_, ?_, ?_, ?_⟩
  · simp only [yearDay, Prod.mk.injEq, true_and]
    omega
  · omega
  · omega
  · omega
  · omega
  · omega
  · omega

theorem yearDay_spec (n : Int) :
    daysBeforeYear (yearDay n).1 + ((yearDay n).2 : Int) = n ∧
    (yearDay n).2 < 366 ∧ (isLeap (yearDay n).1 = true ∨ (yearDay n).2 < 365) := by
  obtain ⟨a, f, b, i, hy, hf, hb, hi, h0, h1, h2⟩ := yearDay_decomp n
  obtain ⟨e1, e2⟩ := year_arith a f b i hf hb hi
  rw [hy]
  simp only
  rw [e1, e2]
  omega

theorem digitVal_digitChar (d : Nat) : digitVal (digitChar d) = some (d % 10) := by
  have h : ∀ k < 10, digitVal (Char.ofNat (48 + k)) = some k := by decide
  exact h (d % 10) (Nat.mod_lt _ (by decide))

theorem num2_pad2 (n : Nat) (h : n < 100) :
    num2 (digitChar (n / 10)) (digitChar n) = some n := by
  simp only [num2, digitVal_digitChar]
  congr 1
  omega

theorem num4_pad4 (n : Nat) (h : n < 10000) :
    num4 (digitChar (n / 1000)) (digitChar (n / 100)) (digitChar (n / 10)) (digitChar n) =
      some n := by
  simp only [num4, num2, digitVal_digitChar]
  congr 1
  omega

theorem year_range (n : Int) (h0 : -366 ≤ n) (h1 : n < 3652059) :
    0 ≤ (yearDay n).1 ∧ (yearDay n).1 < 10000 := by
  obtain ⟨a, f, b, i, hy, hf, hb, hi, h2, h3, _⟩ := yearDay_decomp n
  rw [hy]
  simp only
  have ha0 : -1 ≤ a := by omega
  have ha1 : a ≤ 24 := by omega
  have hlo : a = -1 → f = 3 ∧ b = 24 ∧ i = 3 := by
    intro ha
    subst ha
    have : f = 3 := by omega
    subst this
    have : b = 24 := by omega
    subst this
    omega
  have hhi : a = 24 → ¬ (f = 3 ∧ b = 24 ∧ i = 3) := by
    rintro ha ⟨rfl, rfl, rfl⟩
    subst ha
    omega
  omega

theorem civil_spec (n : Int) :
    1 ≤ (civilFromDays n).2.1 ∧ (civilFromDays n).2.1 ≤ 12 ∧ 1 ≤ (civilFromDays n).2.2 ∧
      (civilFromDays n).2.2 ≤ daysIn (isLeap (civilFromDays n).1) (civilFromDays n).2.1 ∧
      daysFromCivil (civilFromDays n).1 (civilFromDays n).2.1 (civilFromDays n).2.2 = n ∧
      (civilFromDays n).1 = (yearDay n).1 := by
  obtain ⟨e, hlt, hleap⟩ := yearDay_spec n
  obtain ⟨m1, m2, d1, d2, hd⟩ := monthDay_spec (isLeap (yearDay n).1) (yearDay n).2 hlt hleap
  refine ⟨m1, m2, d1, d2, ?_, rfl⟩
  simp only [civilFromDays, daysFromCivil]
  rw [hd]
  exact e

theorem rfc3339_roundtrip (t : Time) (h0 : -62167219200 ≤ t.sec) (h1 : t.sec < 253402300800) :
    rfc3339Parse (rfc3339Format t) = some t.truncSec := by
  obtain ⟨m1, m2, d1, d2, hd, hy⟩ := civil_spec (t.sec / 86400 + 719162)
  obtain ⟨y0, y1⟩ := year_range (t.sec / 86400 + 719162) (by omega) (by omega)
  rw [← hy] at y0 y1
  generalize hc : civilFromDays (t.sec / 86400 + 719162) = c at m1 m2 d1 d2 hd y0 y1
  obtain ⟨y, m, d⟩ := c
  simp only at m1 m2 d1 d2 hd y0 y1
  obtain ⟨yn, rfl⟩ : ∃ yn : Nat, y = yn := ⟨y.toNat, by omega⟩
  have hyn : yn < 10000 := by omega
  have hdl : d < 100 := by
    have : daysIn (isLeap yn) m ≤ 31 := by
      have : ∀ (l : Bool) (k : Nat), k ≤ 12 → daysIn l k ≤ 31 := by decide
      exact this _ _ m2
    omega
  have hrem : (t.sec % 86400).toNat < 86400 := by omega
  simp only [rfc3339Format, hc, yearChars]
  have hneg : ¬ ((yn : Int) < 0) := by omega
  simp only [hneg, if_false, Int.toNat_ofNat, hyn, if_true, pad4, pad2, List.cons_append,
    List.nil_append, List.singleton_append]
  simp only [rfc3339Parse]
  rw [num4_pad4 yn hyn, num2_pad2 m (by omega), num2_pad2 d hdl,
    num2_pad2 _ (by omega), num2_pad2 _ (by omega), num2_pad2 _ (by omega)]
  simp only [timeOfFields]
  rw [if_pos ⟨m1, m2, d1, d2, by omega, by omega, by omega⟩]
  simp only [Time.truncSec, hd, Option.some.injEq, Time.mk.injEq, and_true]
  omega

/-! ## Claims -/

/-- C1: every key of `keyVals` (the element at an even index, printed by `fmt.Sprint`)
is in the context of `Contextualize(err, keyVals...)`, and its value is the one paired
with the last even index whose key prints the same: the next element, or `"MISSING"`
when there is none. -/
theorem contextualize_keys_last_wins (env : Env) (err : Value) (keyVals : List Value)
    (i : Nat) (x : Value) (hx : keyVals[2 * i]? = some x) :
    ∃ j y, keyVals[2 * j]? = some y ∧ env.sprint y = env.sprint x ∧
      (∀ j1 y1, j < j1 → keyVals[2 * j1]? = some y1 → env.sprint y1 ≠ env.sprint x) ∧
      (Contextualize env err keyVals).context.get (env.sprint x) =
        some ((keyVals[2 * j + 1]?).getD (.str "MISSING")) := by
  obtain ⟨j, y, hy, hk, hlast, hval⟩ :=
    lastVal_last env.sprint keyVals (env.sprint x) ⟨i, x, hx, rfl⟩
  refine ⟨j, y, hy, hk, hlast, ?_⟩
  rw [Contextualize_context_get, hval]
  simp

theorem contextualize_keys_last_wins_witness :
    sampleKeyVals[2 * 0]? = some (.str "user") ∧
    ∃ j y, sampleKeyVals[2 * j]? = some y ∧
      sampleEnv.sprint y = sampleEnv.sprint (.str "user") ∧
      (∀ j1 y1, j < j1 → sampleKeyVals[2 * j1]? = some y1 →
        sampleEnv.sprint y1 ≠ sampleEnv.sprint (.str "user")) ∧
      (Contextualize sampleEnv (.ferr "EOF") sampleKeyVals).context.get
          (sampleEnv.sprint (.str "user")) =
        some ((sampleKeyVals[2 * j + 1]?).getD (.str "MISSING")) :=
  ⟨rfl, contextualize_keys_last_wins sampleEnv (.ferr "EOF") sampleKeyVals 0 (.str "user") rfl⟩

/-! ### Cause -/

theorem Cause_Contextualize (env : Env) (x : Value) (kvs : List Value) :
    (Contextualize env x kvs).Cause = if x.hasCause then x.Cause else x := by
  simp [Contextualize, Value.Cause]

theorem nest_Cause_of_node (x : Value) (hx : x.isNode = true) (steps : List (Env × List Value)) :
    (nest x steps).Cause = x.Cause := by
  induction steps generalizing x with
  | nil => rfl
  | cons s steps ih =>
    obtain ⟨env, kvs⟩ := s
    rw [nest, ih _ (by simp [Contextualize, Value.isNode]), Cause_Contextualize]
    cases x <;> simp [Value.isNode] at hx
    simp [Value.hasCause]

/-- C2, as the code has it: on a chain of one or more nested constructions around a
wrapped value `e`, `Cause()` of the outermost node is `e` itself when
`e` has no `Cause()` method (an absent error included), and `e.Cause()` when `e` is a
foreign error that has the method; the number of constructions does not matter. -/
theorem cause_of_chain (e : Value) (steps : List (Env × List Value))
    (hsteps : steps ≠ []) :
    (nest e steps).Cause = if e.hasCause then e.Cause else e := by
  cases steps with
  | nil => exact absurd rfl hsteps
  | cons s steps =>
    obtain ⟨env, kvs⟩ := s
    rw [nest, nest_Cause_of_node _ (by simp [Contextualize, Value.isNode]), Cause_Contextualize]

theorem cause_of_chain_witness :
    (nest (.ferr "EOF") [(sampleEnv, sampleKeyVals), (sampleEnv, []), (sampleEnv, [])]).Cause =
      if (Value.ferr "EOF").hasCause then (Value.ferr "EOF").Cause else .ferr "EOF" :=
  cause_of_chain (.ferr "EOF") [(sampleEnv, sampleKeyVals), (sampleEnv, []), (sampleEnv, [])]
    (by simp)

/-- C2 fails as stated: the innermost wrapped error of this chain of two constructions is
a foreign error that has a `Cause()` method, and `Cause()` of the outermost node returns
that error's own cause, not the error. -/
theorem cause_of_chain_counterexample :
    (nest (.ferrC "read failed" (.ferr "EOF")) [(sampleEnv, []), (sampleEnv, [])]).Cause =
        .ferr "EOF" ∧
      (nest (.ferrC "read failed" (.ferr "EOF")) [(sampleEnv, []), (sampleEnv, [])]).Cause ≠
        .ferrC "read failed" (.ferr "EOF") := by
  have h : (nest (.ferrC "read failed" (.ferr "EOF")) [(sampleEnv, []), (sampleEnv, [])]).Cause =
      .ferr "EOF" := rfl
  refine ⟨h, ?_⟩
  rw [h]
  intro hc
  cases hc

/-! ### toMap -/

/-- C3: in the document of a node, `"err"` is the wrapped node's own document when the
wrapped value is a node, its `Error()` string when it is another error, and is not a
key at all otherwise (an absent error); `"context"` and `"stack"` are always keys. -/
theorem toMap_err_by_kind (err : Value) (context stack : Fields) :
    (Value.node err context stack).toMap.get "err" =
        (if err.isNode then some (.doc err.toMap)
          else if err.isForeignErr then some (.str err.errorString)
          else none) ∧
      ((Value.node Value.nil context stack).toMap.get "err" = none) ∧
      ((Value.node err context stack).toMap.get "context").isSome = true ∧
      ((Value.node err context stack).toMap.get "stack").isSome = true := by
  have e1 : ¬ ("stack" = "err") := by decide
  have e2 : ¬ ("context" = "err") := by decide
  have e3 : ¬ ("stack" = "context") := by decide
  refine ⟨?_, ?_, ?_, ?_⟩
  · by_cases hn : err.isNode = true
    · simp [Value.toMap, hn, Fields.get_set, e1, e2]
    · by_cases hf : err.isForeignErr = true
      · simp [Value.toMap, hn, hf, Fields.get_set, e1, e2]
      · simp [Value.toMap, hn, hf, Fields.get_set, e1, e2, Fields.get]
  · simp [Value.toMap, Value.isNode, Value.isForeignErr, Fields.get_set, e1, e2, Fields.get]
  · simp [Value.toMap, Fields.get_set, e3]
  · simp [Value.toMap, Fields.get_set]

theorem Fields.toMapCtx_get (m : Fields) (h : m.keys.Nodup) (acc : Fields) (k : String) :
    (m.toMapCtx acc).get k = ((m.get k).map Value.converted).orElse (fun _ => acc.get k) := by
  induction m using Fields.induct generalizing acc with
  | hnil => simp [Fields.toMapCtx, Fields.get]
  | hcons k0 v0 rest ih =>
    have hn : k0 ∉ rest.keys ∧ rest.keys.Nodup := by
      simpa [Fields.keys] using h
    have step : (Fields.cons k0 v0 rest).toMapCtx acc =
        rest.toMapCtx (acc.set k0 v0.converted) := by
      by_cases h1 : v0.isNode = true
      · simp [Fields.toMapCtx, Value.converted, h1]
      · by_cases h2 : v0.isForeignErr = true
        · simp [Fields.toMapCtx, Value.converted, h1, h2]
        · simp [Fields.toMapCtx, Value.converted, h1, h2]
    rw [step, ih hn.2]
    by_cases h0 : k0 = k
    · subst h0
      have : rest.get k0 = none := (Fields.get_eq_none_iff rest k0).2 hn.1
      simp [Fields.get, this, Fields.get_set_self]
    · simp [Fields.get, h0, Fields.get_set_ne _ _ _ _ h0]

/-- C4: the `"context"` entry of the document of a node is a map with the keys of the
node's context and no others, and its value at each key is the context value converted:
a node becomes its own document, another error its `Error()` string, and any other value
is kept as it is. -/
theorem toMap_context_entries (err : Value) (context stack : Fields)
    (hkeys : context.keys.Nodup) :
    ∃ m, (Value.node err context stack).toMap.get "context" = some (.doc m) ∧
      (∀ k, m.get k = (context.get k).map Value.converted) ∧
      (∀ k, k ∈ m.keys ↔ k ∈ context.keys) ∧
      (∀ k v, context.get k = some v → v.isNode = false → v.isForeignErr = false →
        m.get k = some v) := by
  have e3 : ¬ ("stack" = "context") := by decide
  have hget : ∀ k, (context.toMapCtx .nil).get k = (context.get k).map Value.converted := by
    intro k
    rw [Fields.toMapCtx_get _ hkeys]
    cases context.get k <;> simp [Fields.get]
  refine ⟨context.toMapCtx .nil, ?_, hget, ?_, ?_⟩
  · simp [Value.toMap, Fields.get_set, e3]
  · intro k
    have h1 := Fields.get_eq_none_iff (context.toMapCtx .nil) k
    have h2 := Fields.get_eq_none_iff context k
    rw [hget k] at h1
    constructor
    · intro hk
      by_contra hc
      have := h2.2 hc
      rw [this] at h1
      exact (h1.1 rfl) hk
    · intro hk
      by_contra hc
      have := h1.2 hc
      cases hg : context.get k with
      | none => exact (h2.1 hg) hk
      | some v => rw [hg] at this; simp at this
  · intro k v hv h1 h2
    rw [hget k, hv]
    simp [Value.converted, h1, h2]

theorem toMap_context_entries_witness :
    sampleContext.keys.Nodup ∧
    ∃ m, (Value.node (.ferr "EOF") sampleContext .nil).toMap.get "context" = some (.doc m) ∧
      (∀ k, m.get k = (sampleContext.get k).map Value.converted) ∧
      (∀ k, k ∈ m.keys ↔ k ∈ sampleContext.keys) ∧
      (∀ k v, sampleContext.get k = some v → v.isNode = false → v.isForeignErr = false →
        m.get k = some v) :=
  ⟨by decide, toMap_context_entries (.ferr "EOF") sampleContext .nil (by decide)⟩

/-! ### Contextualize -/

theorem lastVal_getLast (sprint : Value → String) (kvs : List Value) (x : Value)
    (hodd : kvs.length % 2 = 1) (hx : kvs.getLast? = some x) :
    lastVal sprint kvs (sprint x) = some (.str "MISSING") := by
  induction kvs using pairs_induct with
  | hnil => simp at hodd
  | hone y =>
    have : y = x := by simpa using hx
    subst this
    simp [lastVal]
  | hpair y v rest ih =>
    have hodd1 : rest.length % 2 = 1 := by
      simp only [List.length_cons] at hodd
      omega
    have hne : rest ≠ [] := by
      intro h
      subst h
      simp at hodd1
    have hx1 : rest.getLast? = some x := by
      cases rest with
      | nil => exact absurd rfl hne
      | cons r rs => simpa [List.getLast?_cons_cons] using hx
    rw [lastVal, ih hodd1 hx1]
    simp

/-- C5: a `keyVals` of odd length is not rejected: `Contextualize` returns a node, and
its context maps the printed last element of `keyVals` to the string `"MISSING"`. -/
theorem contextualize_odd_missing (env : Env) (err : Value) (keyVals : List Value) (x : Value)
    (hodd : keyVals.length % 2 = 1) (hlast : keyVals.getLast? = some x) :
    (Contextualize env err keyVals).isNode = true ∧
      (Contextualize env err keyVals).context.get (env.sprint x) = some (.str "MISSING") := by
  refine ⟨by simp [Contextualize, Value.isNode], ?_⟩
  rw [Contextualize_context_get, lastVal_getLast env.sprint keyVals x hodd hlast]
  simp

theorem contextualize_odd_missing_witness :
    sampleKeyVals.length % 2 = 1 ∧ sampleKeyVals.getLast? = some (.str "tail") ∧
    (Contextualize sampleEnv .nil sampleKeyVals).isNode = true ∧
      (Contextualize sampleEnv .nil sampleKeyVals).context.get
        (sampleEnv.sprint (.str "tail")) = some (.str "MISSING") :=
  ⟨rfl, rfl, contextualize_odd_missing sampleEnv .nil sampleKeyVals (.str "tail") rfl rfl⟩

/-- C6: the context of the node that `Contextualize` returns has the key `"timestamp"`.
When no key of `keyVals` prints as `"timestamp"`, its value is the clock reading of the
call in UTC, formatted as RFC3339. When some key does, its value is the one the caller
paired with the last such key (`"MISSING"` when that key ends the list). -/
theorem contextualize_timestamp (env : Env) (err : Value) (keyVals : List Value) :
    ((Contextualize env err keyVals).context.get "timestamp").isSome = true ∧
    ((∀ j y, keyVals[2 * j]? = some y → env.sprint y ≠ "timestamp") →
      (Contextualize env err keyVals).context.get "timestamp" =
        some (.str (env.format env.now))) ∧
    ((∃ i x, keyVals[2 * i]? = some x ∧ env.sprint x = "timestamp") →
      ∃ j y, keyVals[2 * j]? = some y ∧ env.sprint y = "timestamp" ∧
        (∀ j1 y1, j < j1 → keyVals[2 * j1]? = some y1 → env.sprint y1 ≠ "timestamp") ∧
        (Contextualize env err keyVals).context.get "timestamp" =
          some ((keyVals[2 * j + 1]?).getD (.str "MISSING"))) := by
  refine ⟨?_, ?_, ?_⟩
  · rw [Contextualize_context_get]
    cases lastVal env.sprint keyVals "timestamp" <;> simp
  · intro h
    rw [Contextualize_context_get, lastVal_eq_none env.sprint keyVals "timestamp" h]
    simp
  · intro h
    obtain ⟨j, y, hy, hk, hlast, hval⟩ := lastVal_last env.sprint keyVals "timestamp" h
    refine ⟨j, y, hy, hk, hlast, ?_⟩
    rw [Contextualize_context_get, hval]
    simp

theorem sampleKeyVals_no_timestamp (j : Nat) (y : Value)
    (h : sampleKeyVals[2 * j]? = some y) : sampleEnv.sprint y ≠ "timestamp" := by
  rcases j with _ | _ | _ | _ | j
  · have : y = .str "user" := by simpa [sampleKeyVals] using h.symm
    subst this
    decide
  · have : y = .int 7 := by simpa [sampleKeyVals] using h.symm
    subst this
    decide
  · have : y = .str "user" := by simpa [sampleKeyVals] using h.symm
    subst this
    decide
  · have : y = .str "tail" := by simpa [sampleKeyVals] using h.symm
    subst this
    decide
  · have e : 2 * (j + 1 + 1 + 1 + 1) = 2 * j + 8 := by ring
    rw [e] at h
    simp [sampleKeyVals] at h

theorem contextualize_timestamp_witness :
    (Contextualize sampleEnv .nil sampleKeyVals).context.get "timestamp" =
      some (.str "2024-02-29T12:34:56Z") :=
  (contextualize_timestamp sampleEnv .nil sampleKeyVals).2.1 sampleKeyVals_no_timestamp

/-- C7 fails on the code: the caller pairs the key `"timestamp"` with an integer, and
the integer is what the context of the returned node holds under `"timestamp"`, not a
string. -/
theorem timestamp_stored_as_int :
    (Contextualize sampleEnv (.ferr "EOF")
        [.str "timestamp", .int 1709210096]).context.get "timestamp" =
      some (.int 1709210096) ∧
    ¬ ∃ s, (Contextualize sampleEnv (.ferr "EOF")
      [.str "timestamp", .int 1709210096]).context.get "timestamp" = some (.str s) := by
  have h : (Contextualize sampleEnv (.ferr "EOF")
      [.str "timestamp", .int 1709210096]).context.get "timestamp" =
        some (.int 1709210096) := by decide
  refine ⟨h, ?_⟩
  rintro ⟨s, hs⟩
  rw [h] at hs
  cases hs

/-! ### Timestamp -/

/-- C8: `Timestamp()` is a total function of the node. It is the parsed time when the
context has a string under `"timestamp"` that parses as RFC3339, and the zero time in
each other case: no such key, a value that is not a string, a string that does not
parse. -/
theorem timestamp_total (parse : String → Option Time) (err : Value) (context stack : Fields) :
    (∀ ts t, context.get "timestamp" = some (.str ts) → parse ts = some t →
      (Value.node err context stack).Timestamp parse = t) ∧
    (context.get "timestamp" = none →
      (Value.node err context stack).Timestamp parse = Time.zero) ∧
    (∀ v, context.get "timestamp" = some v → (∀ ts, v ≠ .str ts) →
      (Value.node err context stack).Timestamp parse = Time.zero) ∧
    (∀ ts, context.get "timestamp" = some (.str ts) → parse ts = none →
      (Value.node err context stack).Timestamp parse = Time.zero) := by
  refine ⟨?_, ?_, ?_, ?_⟩
  · intro ts t h1 h2
    simp [Value.Timestamp, h1, h2]
  · intro h1
    simp [Value.Timestamp, h1]
  · intro v h1 h2
    cases v <;> simp [Value.Timestamp, h1]
    exact absurd rfl (h2 _)
  · intro ts h1 h2
    simp [Value.Timestamp, h1, h2]

theorem timestamp_total_witness :
    (Value.node .nil (.cons "timestamp" (.str "2024-02-29T12:34:56Z") .nil) .nil).Timestamp
      rfc3339Parse = ⟨1709210096, 0, by decide⟩ :=
  (timestamp_total rfc3339Parse .nil
    (.cons "timestamp" (.str "2024-02-29T12:34:56Z") .nil) .nil).1
    "2024-02-29T12:34:56Z" ⟨1709210096, 0, by decide⟩ (by decide) (by decide)

theorem Contextualize_context_nodup (env : Env) (err : Value) (kvs : List Value) :
    (Contextualize env err kvs).context.keys.Nodup := by
  simp only [Contextualize, Value.context]
  exact Fields.copyInto_keys_nodup _ _ (Fields.nodup_set _ _ _ (by simp [Fields.keys]))

theorem toMap_context_get (err : Value) (context stack : Fields) (h : context.keys.Nodup)
    (k : String) :
    ∃ m, (Value.node err context stack).toMap.get "context" = some (.doc m) ∧
      m.get k = (context.get k).map Value.converted := by
  have e3 : ¬ ("stack" = "context") := by decide
  refine ⟨context.toMapCtx .nil, by simp [Value.toMap, Fields.get_set, e3], ?_⟩
  rw [Fields.toMapCtx_get _ h]
  cases context.get k <;> simp [Fields.get]

theorem timestamp_of_law (env : Env) (err : Value) (keyVals : List Value)
    (hno : ∀ j y, keyVals[2 * j]? = some y → env.sprint y ≠ "timestamp")
    (hlaw : env.parse (env.format env.now) = some env.now.truncSec) :
    ∃ m, (Contextualize env err keyVals).toMap.get "context" = some (.doc m) ∧
      (Contextualize env err keyVals).context.get "timestamp" =
        some (.str (env.format env.now)) ∧
      m.get "timestamp" = some (.str (env.format env.now)) ∧
      (Contextualize env err keyVals).Timestamp env.parse = env.now.truncSec := by
  have hctx : (Contextualize env err keyVals).context.get "timestamp" =
      some (.str (env.format env.now)) := by
    rw [Contextualize_context_get, lastVal_eq_none env.sprint keyVals "timestamp" hno]
    simp
  have hnd := Contextualize_context_nodup env err keyVals
  have hts : (Contextualize env err keyVals).Timestamp env.parse = env.now.truncSec := by
    simp only [Contextualize, Value.context] at hctx
    simp only [Contextualize, Value.Timestamp, hctx, hlaw]
  obtain ⟨m, hm, hk⟩ := toMap_context_get err (Contextualize env err keyVals).context
    (SetLocation env 1 .nil) hnd "timestamp"
  refine ⟨m, hm, hctx, ?_, hts⟩
  rw [hk, hctx]
  simp [Value.converted, Value.isNode, Value.isForeignErr]

/-- C9: take a node built by `Contextualize` with no key of `keyVals` printing as
`"timestamp"`, at a clock reading `now` in the years 0000 to 9999, the texts of package
`time` being those of `rfc3339Format` and `rfc3339Parse`. The `"timestamp"` entry of the
`"context"` of its document is the RFC3339 string stored in the node; parsing that
string gives `Timestamp()`; and `Timestamp()` is `now` truncated to the second, which is
less than one second before `now`. -/
theorem timestamp_reparse (env : Env) (err : Value) (keyVals : List Value)
    (hformat : env.format = rfc3339Format) (hparse : env.parse = rfc3339Parse)
    (hyear : -62167219200 ≤ env.now.sec ∧ env.now.sec < 253402300800)
    (hno : ∀ j y, keyVals[2 * j]? = some y → env.sprint y ≠ "timestamp") :
    ∃ m ts, (Contextualize env err keyVals).toMap.get "context" = some (.doc m) ∧
      (Contextualize env err keyVals).context.get "timestamp" = some (.str ts) ∧
      m.get "timestamp" = some (.str ts) ∧
      ts = rfc3339Format env.now ∧
      rfc3339Parse ts = some ((Contextualize env err keyVals).Timestamp rfc3339Parse) ∧
      (Contextualize env err keyVals).Timestamp rfc3339Parse = env.now.truncSec ∧
      0 ≤ env.now.unixNano -
        ((Contextualize env err keyVals).Timestamp rfc3339Parse).unixNano ∧
      env.now.unixNano - ((Contextualize env err keyVals).Timestamp rfc3339Parse).unixNano <
        1000000000 := by
  have hlaw : env.parse (env.format env.now) = some env.now.truncSec := by
    rw [hformat, hparse]
    exact rfc3339_roundtrip env.now hyear.1 hyear.2
  obtain ⟨m, hm, hctx, hdoc, hts⟩ := timestamp_of_law env err keyVals hno hlaw
  rw [hformat] at hctx hdoc
  rw [hparse] at hts
  refine ⟨m, rfc3339Format env.now, hm, hctx, hdoc, rfl, ?_, hts, ?_, ?_⟩
  · rw [hts]
    exact rfc3339_roundtrip env.now hyear.1 hyear.2
  · rw [hts]
    simp [Time.unixNano, Time.truncSec]
  · rw [hts]
    have := env.now.nsec_lt
    simp only [Time.unixNano, Time.truncSec]
    omega

theorem timestamp_reparse_witness :
    ∃ m ts, (Contextualize sampleEnv .nil sampleKeyVals).toMap.get "context" = some (.doc m) ∧
      (Contextualize sampleEnv .nil sampleKeyVals).context.get "timestamp" = some (.str ts) ∧
      m.get "timestamp" = some (.str ts) ∧
      ts = rfc3339Format sampleEnv.now ∧
      rfc3339Parse ts =
        some ((Contextualize sampleEnv .nil sampleKeyVals).Timestamp rfc3339Parse) ∧
      (Contextualize sampleEnv .nil sampleKeyVals).Timestamp rfc3339Parse =
        sampleEnv.now.truncSec ∧
      0 ≤ sampleEnv.now.unixNano -
        ((Contextualize sampleEnv .nil sampleKeyVals).Timestamp rfc3339Parse).unixNano ∧
      sampleEnv.now.unixNano -
        ((Contextualize sampleEnv .nil sampleKeyVals).Timestamp rfc3339Parse).unixNano <
          1000000000 :=
  timestamp_reparse sampleEnv .nil sampleKeyVals rfl rfl (by decide) sampleKeyVals_no_timestamp

/-! ### The document holds plain data -/

theorem Fields.allPlain_set (m : Fields) (k : String) (v : Value)
    (hm : m.allPlain = true) (hv : v.plain = true) : (m.set k v).allPlain = true := by
  induction m using Fields.induct with
  | hnil => simp [Fields.set, Fields.allPlain, hv]
  | hcons k0 v0 rest ih =>
    have h2 : v0.plain = true ∧ rest.allPlain = true := by
      simpa [Fields.allPlain] using hm
    by_cases h : k0 = k
    · simp [Fields.set, h, Fields.allPlain, hv, h2.2]
    · simp [Fields.set, h, Fields.allPlain, h2.1, ih h2.2]

theorem Fields.entriesNested_set (m : Fields) (k : String) (v : Value)
    (hm : m.entriesNested = true) (hv : v.convertible = true) :
    (m.set k v).entriesNested = true := by
  induction m using Fields.induct with
  | hnil =>
    simp only [Value.convertible] at hv
    simp [Fields.set, Fields.entriesNested, hv]
  | hcons k0 v0 rest ih =>
    have h2 : (if v0.isNode then v0.nested else v0.isForeignErr || v0.plain) = true ∧
        rest.entriesNested = true := by
      simpa [Fields.entriesNested] using hm
    by_cases h : k0 = k
    · simp only [Value.convertible] at hv
      simp [Fields.set, h, Fields.entriesNested, hv, h2.2]
    · simp [Fields.set, h, Fields.entriesNested, h2.1, ih h2.2]

theorem Fields.copyInto_entriesNested (src dst : Fields) (hs : src.entriesNested = true)
    (hd : dst.entriesNested = true) : (src.copyInto dst).entriesNested = true := by
  induction src using Fields.induct generalizing dst with
  | hnil => simpa [Fields.copyInto] using hd
  | hcons k0 v0 rest ih =>
    have h2 : (if v0.isNode then v0.nested else v0.isForeignErr || v0.plain) = true ∧
        rest.entriesNested = true := by
      simpa [Fields.entriesNested] using hs
    rw [Fields.copyInto]
    exact ih _ h2.2 (Fields.entriesNested_set dst k0 v0 hd (by simpa [Value.convertible] using h2.1))

theorem parseLoop_entriesNested (sprint : Value → String) (kvs : List Value) (m : Fields)
    (hkv : ∀ j v, kvs[2 * j + 1]? = some v → v.convertible = true)
    (hm : m.entriesNested = true) : (parseLoop sprint kvs m).entriesNested = true := by
  induction kvs using pairs_induct generalizing m with
  | hnil => simpa [parseLoop] using hm
  | hone x => exact Fields.entriesNested_set _ _ _ hm (by decide)
  | hpair x v rest ih =>
    rw [parseLoop]
    refine ih _ ?_ (Fields.entriesNested_set _ _ _ hm (hkv 0 v (by simp)))
    intro j w hw
    exact hkv (j + 1) w (by rw [(getElem?_pair_succ x v rest j).2]; exact hw)

theorem parseKeyVals_entriesNested (sprint : Value → String) (kvs : List Value)
    (hkv : ∀ j v, kvs[2 * j + 1]? = some v → v.convertible = true) :
    (parseKeyVals sprint kvs).entriesNested = true := by
  unfold parseKeyVals
  by_cases h : kvs.length = 0
  · simp [h, Fields.entriesNested]
  · rw [if_neg h]
    exact parseLoop_entriesNested sprint kvs .nil hkv (by simp [Fields.entriesNested])

mutual
theorem Value.toMap_plain : ∀ (v : Value), v.nested = true → v.toMap.allPlain = true
  | .node err context stack, h => by
    have h3 : ((if err.isNode then err.nested else true) = true ∧
        context.entriesNested = true) ∧ stack.allPlain = true := by
      simpa [Value.nested] using h
    have hctx := Fields.toMapCtx_plain context .nil h3.1.2 (by simp [Fields.allPlain])
    have herr : (if err.isNode = true then Fields.nil.set "err" (.doc err.toMap)
        else if err.isForeignErr = true then Fields.nil.set "err" (.str err.errorString)
        else Fields.nil).allPlain = true := by
      by_cases hn : err.isNode = true
      · have hne : err.nested = true := by simpa [hn] using h3.1.1
        have := Value.toMap_plain err hne
        simp [hn, Fields.set, Fields.allPlain, Value.plain, this]
      · by_cases hf : err.isForeignErr = true
        · simp [hn, hf, Fields.set, Fields.allPlain, Value.plain]
        · simp [hn, hf, Fields.allPlain]
    simp only [Value.toMap]
    exact Fields.allPlain_set _ _ _
      (Fields.allPlain_set _ _ _ herr (by simpa [Value.plain] using hctx))
      (by simpa [Value.plain] using h3.2)
  | .nil, h => by simp [Value.nested] at h
  | .str _, h => by simp [Value.nested] at h
  | .int _, h => by simp [Value.nested] at h
  | .bool _, h => by simp [Value.nested] at h
  | .chan, h => by simp [Value.nested] at h
  | .doc _, h => by simp [Value.nested] at h
  | .ferr _, h => by simp [Value.nested] at h
  | .ferrC _ _, h => by simp [Value.nested] at h
theorem Fields.toMapCtx_plain : ∀ (m acc : Fields), m.entriesNested = true →
    acc.allPlain = true → (m.toMapCtx acc).allPlain = true
  | .nil, acc, _, ha => by simpa [Fields.toMapCtx] using ha
  | .cons k v rest, acc, hm, ha => by
    have h2 : (if v.isNode then v.nested else v.isForeignErr || v.plain) = true ∧
        rest.entriesNested = true := by
      simpa [Fields.entriesNested] using hm
    by_cases hn : v.isNode = true
    · have hv : v.nested = true := by simpa [hn] using h2.1
      have := Value.toMap_plain v hv
      simp only [Fields.toMapCtx, hn, if_true]
      exact Fields.toMapCtx_plain rest _ h2.2
        (Fields.allPlain_set _ _ _ ha (by simpa [Value.plain] using this))
    · by_cases hf : v.isForeignErr = true
      · simp only [Fields.toMapCtx, hn, hf, if_true, if_false]
        exact Fields.toMapCtx_plain rest _ h2.2
          (Fields.allPlain_set _ _ _ ha (by simp [Value.plain]))
      · have hp : v.plain = true := by simpa [hn, hf] using h2.1
        simp only [Fields.toMapCtx, hn, hf, if_false]
        exact Fields.toMapCtx_plain rest _ h2.2 (Fields.allPlain_set _ _ _ ha hp)
end

theorem Contextualize_nested (env : Env) (err : Value) (kvs : List Value)
    (herr : err.isNode = true → err.nested = true)
    (hkv : ∀ j v, kvs[2 * j + 1]? = some v → v.convertible = true) :
    (Contextualize env err kvs).nested = true := by
  have hctx : ((parseKeyVals env.sprint kvs).copyInto
      (Fields.nil.set "timestamp" (.str (env.format env.now)))).entriesNested = true :=
    Fields.copyInto_entriesNested _ _ (parseKeyVals_entriesNested env.sprint kvs hkv)
      (by simp [Fields.set, Fields.entriesNested, Value.isNode, Value.isForeignErr, Value.plain])
  have hstack : (SetLocation env 1 .nil).allPlain = true := by
    simp [SetLocation, Fields.set, Fields.allPlain, Value.plain]
  by_cases hn : err.isNode = true
  · simp [Contextualize, Value.nested, hn, herr hn, hctx, hstack]
  · simp [Contextualize, Value.nested, hn, hctx, hstack]

/-- When the wrapped value, if a node, is a node in which nodes are nested only as
wrapped error or context values, and every value of `keyVals` is such a node, a foreign
error, or a value with no error and no node inside, the document of the node that
`Contextualize` returns holds no node and no error at any depth: each was converted. -/
theorem document_is_plain (env : Env) (err : Value) (keyVals : List Value)
    (herr : err.isNode = true → err.nested = true)
    (hkv : ∀ j v, keyVals[2 * j + 1]? = some v → v.convertible = true) :
    (Contextualize env err keyVals).toMap.allPlain = true :=
  Value.toMap_plain _ (Contextualize_nested env err keyVals herr hkv)

/-- C10 fails on the code: a channel is a context value that is neither a node nor an
error, so `toMap()` keeps it as it is, the document holds the channel under `"context"`,
and `MarshalJSON()`, which hands the document to `json.Marshal`, returns an error. -/
theorem marshalJSON_channel_fails :
    (∃ m, (Contextualize sampleEnv .nil [.str "ch", .chan]).toMap.get "context" =
        some (.doc m) ∧ m.get "ch" = some .chan) ∧
      (Contextualize sampleEnv .nil [.str "ch", .chan]).toMap.allPlain = true ∧
      (Contextualize sampleEnv .nil [.str "ch", .chan]).MarshalJSON = none :=
  ⟨⟨_, rfl, rfl⟩, by decide, by decide⟩

/-! ### The stack -/

/-- C11: the stack of the node that `Contextualize` returns has exactly the keys
`"file"` and `"line"`: the file of the caller's frame as a string, trimmed by
`trimGoPath`, and the line of that frame as an integer. It is the same whatever
`keyVals` holds: no pair of the caller is written to it. -/
theorem stack_file_line (env : Env) (err : Value) (keyVals : List Value) :
    (Contextualize env err keyVals).stack.keys = ["file", "line"] ∧
      (Contextualize env err keyVals).stack.get "file" =
        some (.str (trimGoPath env.goPath env.prefixSize (env.caller 2).1)) ∧
      (Contextualize env err keyVals).stack.get "line" = some (.int (env.caller 2).2) ∧
      (Contextualize env err keyVals).stack = (Contextualize env err []).stack := by
  have e1 : ¬ ("file" = "line") := by decide
  refine ⟨?_, ?_, ?_, rfl⟩
  · simp [Contextualize, Value.stack, SetLocation, Fields.set, Fields.keys, e1]
  · simp [Contextualize, Value.stack, SetLocation, Fields.set, Fields.get, e1]
  · simp [Contextualize, Value.stack, SetLocation, Fields.set, Fields.get, e1]

/-- C12: the `"stack"` entry of the document of a node is the stack of the node as it
is, whatever its values are: nothing in it is converted. -/
theorem toMap_stack_verbatim (err : Value) (context stack : Fields) :
    (Value.node err context stack).toMap.get "stack" = some (.doc stack) := by
  simp [Value.toMap, Fields.get_set]

/-- C13 fails on the code: when the path that the runtime reports for `stack.go` is
shorter than the 45 bytes of `github.com/gagliardetto/bianconiglio/stack.go`, the
bound `size-suffix` of the slice is negative and `init` faults. -/
theorem init_short_path_faults : init "/tmp/b/stack.go" true = none := by
  decide

theorem init_completes_of_long_path (file : String) (ok : Bool)
    (h : 45 ≤ file.utf8ByteSize) : (init file ok).isSome = true := by
  have hs : ("github.com/gagliardetto/bianconiglio/stack.go" : String).utf8ByteSize = 45 := by
    decide
  by_cases h1 : file = "?"
  · simp [init, h1]
  · cases ok
    · simp [init, h1]
    · simp only [init, h1, if_false, if_true, hs]
      rw [if_pos (by omega)]
      rfl

theorem trimGoPath_of_startsWith (goPath filename : String)
    (h : goPath.data <+: filename.data) :
    goPath ++ trimGoPath goPath goPath.length filename = filename := by
  obtain ⟨rest, hrest⟩ := h
  have hp : goPath.data.isPrefixOf filename.data = true := by
    rw [List.isPrefixOf_iff_prefix]
    exact ⟨rest, hrest⟩
  apply String.ext
  simp only [trimGoPath, hp, if_true, String.data_append, String.length]
  rw [← hrest]
  simp

/-- C14: with `prefixSize` the length of `goPath`, `trimGoPath` removes exactly the
prefix `goPath` from a file name that starts with it, leaves any other file name as it
is, and is the identity when `goPath` is empty. -/
theorem trimGoPath_strips_goPath (goPath filename : String) :
    (goPath.data <+: filename.data →
      goPath ++ trimGoPath goPath goPath.length filename = filename) ∧
    (¬ goPath.data <+: filename.data →
      trimGoPath goPath goPath.length filename = filename) ∧
    trimGoPath "" 0 filename = filename := by
  refine ⟨trimGoPath_of_startsWith goPath filename, ?_, ?_⟩
  · intro h
    have hp : goPath.data.isPrefixOf filename.data = false := by
      rw [Bool.eq_false_iff]
      intro hc
      exact h (List.isPrefixOf_iff_prefix.mp hc)
    simp [trimGoPath, hp]
  · simp [trimGoPath]

theorem trimGoPath_strips_goPath_witness :
    "/home/u/go/src/" ++
      trimGoPath "/home/u/go/src/" ("/home/u/go/src/" : String).length
        "/home/u/go/src/app/main.go" = "/home/u/go/src/app/main.go" :=
  (trimGoPath_strips_goPath "/home/u/go/src/" "/home/u/go/src/app/main.go").1 (by decide)

/-! ### Cause, by capability -/

/-- C18: `Cause()` of a node follows the `Cause()` method of the wrapped value and
nothing else: it is the wrapped value's `Cause()` when the wrapped value has the method
(a node, or a foreign error that has it, whose own cause is then the result), the
wrapped value itself when it has not, and absent when the wrapped error is absent. -/
theorem cause_by_capability (err : Value) (context stack : Fields) :
    (Value.node err context stack).Cause = (if err.hasCause then err.Cause else err) ∧
      (∀ e c s, (Value.node (.node e c s) context stack).Cause = (Value.node e c s).Cause) ∧
      (∀ msg cause, (Value.node (.ferrC msg cause) context stack).Cause = cause) ∧
      (∀ msg, (Value.node (.ferr msg) context stack).Cause = .ferr msg) ∧
      (Value.node .nil context stack).Cause = .nil := by
  refine ⟨by simp [Value.Cause], ?_, ?_, ?_, ?_⟩
  · intro e c s
    simp [Value.Cause, Value.hasCause]
  · intro msg cause
    simp [Value.Cause, Value.hasCause]
  · intro msg
    simp [Value.Cause, Value.hasCause]
  · simp [Value.Cause, Value.hasCause]

/-! ### The tree -/

theorem Branches.mk_text_children (b : Branches) : Branches.mk b.text b.children = b := by
  cases b
  rfl

theorem Value.tree_eq (sprint : Value → String) (v : Value) (parent : Branches) :
    v.tree sprint parent = .mk parent.text (parent.children ++ v.branches sprint) := by
  cases parent
  cases v <;> simp [Value.tree, Value.branches, Branches.children, Branches.text]

theorem Fields.treeLoop_eq (sprint : Value → String) (m : Fields) (t : Branches) :
    m.treeLoop sprint t = .mk t.text (t.children ++ m.entriesBranches sprint) := by
  induction m using Fields.induct generalizing t with
  | hnil => simp [Fields.treeLoop, Fields.entriesBranches, Branches.mk_text_children]
  | hcons k v rest ih =>
    by_cases hn : v.isNode = true
    · simp [Fields.treeLoop, Fields.entriesBranches, entryBranches, hn, ih, Value.tree_eq,
        Branches.text, Branches.children]
    · by_cases hf : v.isForeignErr = true
      · simp [Fields.treeLoop, Fields.entriesBranches, entryBranches, hn, hf, ih,
          Branches.Child, Branches.text, Branches.children]
      · simp [Fields.treeLoop, Fields.entriesBranches, entryBranches, hn, hf, ih,
          Branches.Child, Branches.text, Branches.children]

theorem Value.branches_node (sprint : Value → String) (err : Value) (context stack : Fields) :
    (Value.node err context stack).branches sprint =
      [.mk "ERR" (if err.isNode then err.branches sprint
          else if err.isForeignErr then [leaf (sprint (.str err.errorString))]
          else [leaf (sprint err)]),
        .mk "CTX" (context.entriesBranches sprint),
        .mk "STACK" (stack.entriesBranches sprint)] := by
  have hE : (if err.isNode = true then err.tree sprint (.mk "ERR" [])
      else if err.isForeignErr = true then
        (Branches.mk "ERR" []).Child (sprint (.str err.errorString))
      else (Branches.mk "ERR" []).Child (sprint err)) =
      .mk "ERR" (if err.isNode then err.branches sprint
        else if err.isForeignErr then [leaf (sprint (.str err.errorString))]
        else [leaf (sprint err)]) := by
    by_cases hn : err.isNode = true
    · simp only [hn, if_true]
      rw [Value.tree_eq]
      simp [Branches.text, Branches.children]
    · by_cases hf : err.isForeignErr = true
      · simp [hn, hf, Branches.Child, Branches.text, Branches.children]
      · simp [hn, hf, Branches.Child, Branches.text, Branches.children]
  show ((Value.node err context stack).tree sprint (.mk "" [])).children = _
  simp only [Value.tree]
  rw [hE, Fields.treeLoop_eq, Fields.treeLoop_eq]
  simp [Branches.text, Branches.children]

theorem Value.branches_labels (sprint : Value → String) (v : Value) (h : v.isNode = true) :
    ∃ e c s, v.branches sprint = [e, c, s] ∧
      e.text = "ERR" ∧ c.text = "CTX" ∧ s.text = "STACK" := by
  cases v <;> simp [Value.isNode] at h
  rw [Value.branches_node]
  exact ⟨_, _, _, rfl, rfl, rfl, rfl⟩

theorem Value.tree_node (sprint : Value → String) (err : Value) (context stack : Fields)
    (parent : Branches) :
    ∃ E C S, (Value.node err context stack).tree sprint parent =
        .mk parent.text (parent.children ++ [E, C, S]) ∧
      E = .mk "ERR" (if err.isNode then err.branches sprint
          else if err.isForeignErr then [leaf (sprint (.str err.errorString))]
          else [leaf (sprint err)]) ∧
      C = .mk "CTX" (context.entriesBranches sprint) ∧
      S = .mk "STACK" (stack.entriesBranches sprint) := by
  refine ⟨_, _, _, ?_, rfl, rfl, rfl⟩
  rw [Value.tree_eq, Value.branches_node]

/-- C15: for the node that `Contextualize` builds with no wrapped error and no
`keyVals`, `tree(parent)` adds to `parent` exactly three branches, `ERR`, `CTX` and
`STACK` in that order. `ERR` has one leaf, the printed absent error; `CTX` has one leaf,
for `"timestamp"`; `STACK` has the two leaves for `"file"` and `"line"`. -/
theorem tree_of_bare_node (env : Env) (parent : Branches) :
    ∃ E C S, (Contextualize env .nil []).tree env.sprint parent =
        .mk parent.text (parent.children ++ [E, C, S]) ∧
      E = .mk "ERR" [leaf (env.sprint .nil)] ∧
      C = .mk "CTX" [leaf (sprintfKV env.sprint (.str "timestamp")
        (.str (env.sprint (.str (env.format env.now)))))] ∧
      S.text = "STACK" ∧
      S.children.Perm
        [leaf (sprintfKV env.sprint (.str "file") (.str (env.sprint
            (.str (trimGoPath env.goPath env.prefixSize (env.caller 2).1))))),
          leaf (sprintfKV env.sprint (.str "line")
            (.str (env.sprint (.int (env.caller 2).2))))] := by
  have e1 : ¬ ("file" = "line") := by decide
  obtain ⟨E, C, S, h, hE, hC, hS⟩ := Value.tree_node env.sprint .nil
    (Contextualize env .nil []).context (Contextualize env .nil []).stack parent
  refine ⟨E, C, S, h, ?_, ?_, ?_, ?_⟩
  · rw [hE]
    simp [Value.isNode, Value.isForeignErr]
  · rw [hC]
    simp [Contextualize, Value.context, parseKeyVals, Fields.copyInto, Fields.set,
      Fields.entriesBranches, entryBranches, Value.isNode, Value.isForeignErr]
  · rw [hS]
    rfl
  · rw [hS]
    simp [Contextualize, Value.stack, SetLocation, Fields.set, e1, Branches.children,
      Fields.entriesBranches, entryBranches, Value.isNode, Value.isForeignErr]

/-- C16: the `ERR` branch that `tree` builds follows the kind of the wrapped value. For
a node its children are exactly that node's own `ERR`, `CTX` and `STACK` branches; for
another error it has exactly one leaf, the `Error()` string; for an absent error it has
exactly one leaf, the printed absent value. -/
theorem tree_err_branch (sprint : Value → String) (err : Value) (context stack : Fields)
    (parent : Branches) (hstr : ∀ s, sprint (.str s) = s) :
    ∃ E C S, (Value.node err context stack).tree sprint parent =
        .mk parent.text (parent.children ++ [E, C, S]) ∧
      E.text = "ERR" ∧ C.text = "CTX" ∧ S.text = "STACK" ∧
      (err.isNode = true → E.children = err.branches sprint ∧
        ∃ e c s, err.branches sprint = [e, c, s] ∧
          e.text = "ERR" ∧ c.text = "CTX" ∧ s.text = "STACK") ∧
      (err.isForeignErr = true → E.children = [leaf err.errorString]) ∧
      (err = .nil → E.children = [leaf (sprint .nil)]) := by
  obtain ⟨E, C, S, h, hE, hC, hS⟩ := Value.tree_node sprint err context stack parent
  refine ⟨E, C, S, h, by rw [hE]; rfl, by rw [hC]; rfl, by rw [hS]; rfl, ?_, ?_, ?_⟩
  · intro hn
    refine ⟨by rw [hE]; simp [hn, Branches.children], Value.branches_labels sprint err hn⟩
  · intro hf
    have hn : err.isNode = false := by
      cases err <;> simp [Value.isForeignErr] at hf <;> rfl
    rw [hE]
    simp [hn, hf, hstr, Branches.children]
  · intro h0
    subst h0
    rw [hE]
    simp [Value.isNode, Value.isForeignErr, Branches.children]

theorem tree_err_branch_witness :
    (∀ s, sprintPlain (.str s) = s) ∧
    ∃ E C S, (Value.node (sampleInner sampleEnv) sampleContext .nil).tree sprintPlain
          (.mk "" []) =
        .mk (Branches.mk "" []).text ((Branches.mk "" []).children ++ [E, C, S]) ∧
      E.text = "ERR" ∧ C.text = "CTX" ∧ S.text = "STACK" ∧
      ((sampleInner sampleEnv).isNode = true →
        E.children = (sampleInner sampleEnv).branches sprintPlain ∧
        ∃ e c s, (sampleInner sampleEnv).branches sprintPlain = [e, c, s] ∧
          e.text = "ERR" ∧ c.text = "CTX" ∧ s.text = "STACK") ∧
      ((sampleInner sampleEnv).isForeignErr = true →
        E.children = [leaf (sampleInner sampleEnv).errorString]) ∧
      (sampleInner sampleEnv = .nil → E.children = [leaf (sprintPlain .nil)]) :=
  ⟨fun _ => rfl,
    tree_err_branch sprintPlain (sampleInner sampleEnv) sampleContext .nil (.mk "" [])
      (fun _ => rfl)⟩

theorem Fields.entriesBranches_leaves (sprint : Value → String) (m : Fields)
    (hstr : ∀ s, sprint (.str s) = s) (hno : ∀ kv ∈ m.toList, kv.2.isNode = false) :
    m.entriesBranches sprint = m.toList.map (fun kv =>
      leaf (kv.1 ++ ": " ++ (if kv.2.isForeignErr then kv.2.errorString else sprint kv.2))) := by
  induction m using Fields.induct with
  | hnil => simp [Fields.entriesBranches, Fields.toList]
  | hcons k v rest ih =>
    have hv : v.isNode = false := hno (k, v) (by simp [Fields.toList])
    have hrest : ∀ kv ∈ rest.toList, kv.2.isNode = false := fun kv hkv =>
      hno kv (by simp [Fields.toList, hkv])
    by_cases hf : v.isForeignErr = true
    · simp [Fields.entriesBranches, Fields.toList, entryBranches, hv, hf, ih hrest,
        sprintfKV, hstr]
    · simp [Fields.entriesBranches, Fields.toList, entryBranches, hv, hf, ih hrest,
        sprintfKV, hstr]

/-- C17: for a node whose context holds no node, the `CTX` branch that `tree` builds has
exactly one leaf for each context entry and no other child; the leaf of the entry
`(k, v)` has the text `k: ` followed by the printed `v`, or by its `Error()` string when
`v` is an error. -/
theorem tree_ctx_leaves (sprint : Value → String) (err : Value) (context stack : Fields)
    (parent : Branches) (hstr : ∀ s, sprint (.str s) = s)
    (hno : ∀ kv ∈ context.toList, kv.2.isNode = false) :
    ∃ E C S, (Value.node err context stack).tree sprint parent =
        .mk parent.text (parent.children ++ [E, C, S]) ∧
      C.text = "CTX" ∧
      C.children = context.toList.map (fun kv =>
        leaf (kv.1 ++ ": " ++
          (if kv.2.isForeignErr then kv.2.errorString else sprint kv.2))) ∧
      C.children.length = context.toList.length := by
  obtain ⟨E, C, S, h, _, hC, _⟩ := Value.tree_node sprint err context stack parent
  have hch : C.children = context.toList.map (fun kv =>
      leaf (kv.1 ++ ": " ++
        (if kv.2.isForeignErr then kv.2.errorString else sprint kv.2))) := by
    rw [hC]
    exact Fields.entriesBranches_leaves sprint context hstr hno
  refine ⟨E, C, S, h, by rw [hC]; rfl, hch, ?_⟩
  rw [hch, List.length_map]

theorem tree_ctx_leaves_witness :
    ∃ E C S, (Contextualize sampleEnv (.ferr "EOF")
          [.str "user", .str "alice", .str "attempt", .int 3]).tree sprintPlain (.mk "" []) =
        .mk "" [E, C, S] ∧
      C.text = "CTX" ∧
      C.children.Perm
        [leaf "user: alice", leaf "attempt: 3", leaf "timestamp: 2024-02-29T12:34:56Z"] := by
  obtain ⟨E, C, S, h, hC, hch, _⟩ := tree_ctx_leaves sprintPlain (.ferr "EOF")
    (Contextualize sampleEnv (.ferr "EOF")
      [.str "user", .str "alice", .str "attempt", .int 3]).context
    (Contextualize sampleEnv (.ferr "EOF")
      [.str "user", .str "alice", .str "attempt", .int 3]).stack
    (.mk "" []) (fun _ => rfl) (by decide)
  refine ⟨E, C, S, h, hC, ?_⟩
  have hlist : C.children =
      [leaf "timestamp: 2024-02-29T12:34:56Z", leaf "user: alice", leaf "attempt: 3"] := by
    rw [hch]
    have e1 : sampleEnv.format sampleEnv.now = "2024-02-29T12:34:56Z" := by decide
    have e2 : sprintPlain (.int 3) = "3" := by decide
    have e3 : ¬ ("timestamp" = "user") := by decide
    have e4 : ¬ ("timestamp" = "attempt") := by decide
    have e5 : ¬ ("user" = "attempt") := by decide
    simp [Contextualize, Value.context, parseKeyVals, parseLoop, Fields.copyInto, Fields.set,
      Fields.toList, e1, e2, e3, e4, e5, Value.isForeignErr, sprintPlain]
    constructor <;> exact congrArg leaf (by decide)
  rw [hlist]
  exact @List.perm_append_comm _ [leaf "timestamp: 2024-02-29T12:34:56Z"]
    [leaf "user: alice", leaf "attempt: 3"]

theorem Fields.entriesBranches_of_get (sprint : Value → String) (m : Fields) (k : String)
    (v : Value) (hget : m.get k = some v) (hv : v.isNode = true) :
    ∃ pre post, m.entriesBranches sprint = pre ++ v.branches sprint ++ post := by
  induction m using Fields.induct with
  | hnil => simp [Fields.get] at hget
  | hcons k0 v0 rest ih =>
    by_cases h : k0 = k
    · have hv0 : v0 = v := by simpa [Fields.get, h] using hget
      subst hv0
      exact ⟨[], rest.entriesBranches sprint, by
        simp [Fields.entriesBranches, entryBranches, hv]⟩
    · have hr : rest.get k = some v := by simpa [Fields.get, h] using hget
      obtain ⟨pre, post, hp⟩ := ih hr
      exact ⟨entryBranches sprint k0 v0 ++ pre, post, by
        simp [Fields.entriesBranches, hp]⟩

theorem Fields.rekey_of_not_mem (k k1 : String) (m : Fields) (h : k ∉ m.keys) :
    m.rekey k k1 = m := by
  induction m using Fields.induct with
  | hnil => rfl
  | hcons k0 v0 rest ih =>
    have h2 : ¬ k = k0 ∧ k ∉ rest.keys := by
      simpa [Fields.keys] using h
    have h3 : ¬ k0 = k := fun e => h2.1 e.symm
    simp [Fields.rekey, h3, ih h2.2]

theorem Fields.entriesBranches_rekey (sprint : Value → String) (m : Fields) (k k1 : String)
    (v : Value) (hkeys : m.keys.Nodup) (hget : m.get k = some v) (hv : v.isNode = true) :
    (m.rekey k k1).entriesBranches sprint = m.entriesBranches sprint := by
  induction m using Fields.induct with
  | hnil => rfl
  | hcons k0 v0 rest ih =>
    have hn : k0 ∉ rest.keys ∧ rest.keys.Nodup := by
      simpa [Fields.keys] using hkeys
    by_cases h : k0 = k
    · have hv0 : v0 = v := by simpa [Fields.get, h] using hget
      subst hv0
      subst h
      rw [Fields.rekey, Fields.rekey_of_not_mem _ _ _ hn.1]
      simp [Fields.entriesBranches, entryBranches, hv]
    · have hr : rest.get k = some v := by simpa [Fields.get, h] using hget
      simp [Fields.rekey, h, Fields.entriesBranches, ih hn.2 hr]

/-- C19 fails as stated: the context maps the key `"ERR"` to a node, and `tree` adds to
the `CTX` branch a child whose text is `ERR`, the key itself: the `ERR` branch of that
node. -/
theorem tree_drops_nested_key_counterexample :
    ∃ E C S child, (Contextualize sampleEnv (.ferr "EOF")
          [.str "ERR", sampleInner sampleEnv]).tree sprintPlain (.mk "" []) =
        .mk "" [E, C, S] ∧
      (Contextualize sampleEnv (.ferr "EOF")
          [.str "ERR", sampleInner sampleEnv]).context.get "ERR" =
        some (sampleInner sampleEnv) ∧
      C.text = "CTX" ∧ child ∈ C.children ∧ child.text = "ERR" := by
  obtain ⟨E, C, S, h, _, hC, _⟩ := Value.tree_node sprintPlain (.ferr "EOF")
    (Contextualize sampleEnv (.ferr "EOF") [.str "ERR", sampleInner sampleEnv]).context
    (Contextualize sampleEnv (.ferr "EOF") [.str "ERR", sampleInner sampleEnv]).stack
    (.mk "" [])
  obtain ⟨pre, post, hp⟩ := Fields.entriesBranches_of_get sprintPlain
    (Contextualize sampleEnv (.ferr "EOF") [.str "ERR", sampleInner sampleEnv]).context
    "ERR" (sampleInner sampleEnv) (by decide) (by decide)
  obtain ⟨e, c, s, hb, he, _, _⟩ :=
    Value.branches_labels sprintPlain (sampleInner sampleEnv) (by decide)
  refine ⟨E, C, S, e, h, by decide, by rw [hC]; rfl, ?_, he⟩
  rw [hC]
  simp [Branches.children, hp, hb]

/-- C19, as the code has it: when the context of a node maps the key `k` to a node `v`,
`tree` adds the `ERR`, `CTX` and `STACK` branches of `v` directly as children of the
`CTX` branch, and adds nothing made from `k`: the children added for the entry are those
three branches, whose texts are `ERR`, `CTX` and `STACK`, and the tree is the same
whatever key that entry has. The document of `toMap()` keeps the key, with the document
of `v` under it. -/
theorem tree_drops_nested_key (sprint : Value → String) (err : Value)
    (context stack : Fields) (parent : Branches) (k : String) (v : Value)
    (hkeys : context.keys.Nodup) (hget : context.get k = some v) (hv : v.isNode = true) :
    ∃ E C S pre post, (Value.node err context stack).tree sprint parent =
        .mk parent.text (parent.children ++ [E, C, S]) ∧
      C.text = "CTX" ∧ C.children = pre ++ v.branches sprint ++ post ∧
      (∃ e c s, v.branches sprint = [e, c, s] ∧
        e.text = "ERR" ∧ c.text = "CTX" ∧ s.text = "STACK") ∧
      (∀ k1, (Value.node err (context.rekey k k1) stack).tree sprint parent =
        (Value.node err context stack).tree sprint parent) ∧
      (∃ m, (Value.node err context stack).toMap.get "context" = some (.doc m) ∧
        m.get k = some (.doc v.toMap)) := by
  obtain ⟨E, C, S, h, _, hC, _⟩ := Value.tree_node sprint err context stack parent
  obtain ⟨pre, post, hp⟩ := Fields.entriesBranches_of_get sprint context k v hget hv
  refine ⟨E, C, S, pre, post, h, by rw [hC]; rfl, by rw [hC]; exact hp,
    Value.branches_labels sprint v hv, ?_, ?_⟩
  · intro k1
    rw [Value.tree_eq, Value.tree_eq, Value.branches_node, Value.branches_node,
      Fields.entriesBranches_rekey sprint context k k1 v hkeys hget hv]
  · obtain ⟨m, hm, hk⟩ := toMap_context_get err context stack hkeys k
    refine ⟨m, hm, ?_⟩
    rw [hk, hget]
    simp [Value.converted, hv]

theorem tree_drops_nested_key_witness :
    ∃ E C S pre post, (Value.node (.ferr "EOF") sampleContext .nil).tree sprintPlain
          (.mk "" []) =
        .mk (Branches.mk "" []).text ((Branches.mk "" []).children ++ [E, C, S]) ∧
      C.text = "CTX" ∧
      C.children = pre ++
        (Value.node (.ferr "EOF") (.cons "op" (.str "read") .nil) .nil).branches sprintPlain ++
        post ∧
      (∃ e c s,
        (Value.node (.ferr "EOF") (.cons "op" (.str "read") .nil) .nil).branches sprintPlain =
          [e, c, s] ∧ e.text = "ERR" ∧ c.text = "CTX" ∧ s.text = "STACK") ∧
      (∀ k1, (Value.node (.ferr "EOF") (sampleContext.rekey "inner" k1) .nil).tree sprintPlain
          (.mk "" []) =
        (Value.node (.ferr "EOF") sampleContext .nil).tree sprintPlain (.mk "" [])) ∧
      (∃ m, (Value.node (.ferr "EOF") sampleContext .nil).toMap.get "context" =
          some (.doc m) ∧
        m.get "inner" = some (.doc
          (Value.node (.ferr "EOF") (.cons "op" (.str "read") .nil) .nil).toMap)) :=
  tree_drops_nested_key sprintPlain (.ferr "EOF") sampleContext .nil (.mk "" []) "inner"
    (.node (.ferr "EOF") (.cons "op" (.str "read") .nil) .nil) (by decide) (by decide) rfl

end Bianconiglio
